import Mathlib

/-!
Shallow embedding of `tft-comp-decider` (Python) in Lean 4.

Conventions of the embedding:
* Python `str` is Lean `String`; character-level operations work on `List Char`.
* Python `dict` / `Counter` values are association lists `List (key × value)`
  in insertion order; lookup takes the first matching key (equal to dict
  lookup whenever the key list is duplicate-free, which holds for every list
  that models an actual `dict`).
* Python `float` arithmetic is modelled with `ℚ` (exact arithmetic).
* Python functions that can raise return `Option`.
-/

namespace TFT

/-- Whitespace characters recognised by Python `str.strip` (ASCII subset;
non-ASCII Unicode whitespace is not modelled). -/
def isPySpace (c : Char) : Bool :=
  c = ' ' ∨ c = '\t' ∨ c = '\n' ∨ c = '\r' ∨ c = '\x0b' ∨ c = '\x0c'

/-- Drop leading Python whitespace. -/
def lstripChars (l : List Char) : List Char := l.dropWhile isPySpace

/-- Drop trailing Python whitespace. -/
def rstripChars : List Char → List Char
  | [] => []
  | c :: cs =>
    let r := rstripChars cs
    if r = [] ∧ isPySpace c then [] else c :: r

/-- Python `str.strip()` on character lists. -/
def stripChars (l : List Char) : List Char := rstripChars (lstripChars l)

/-- Python `str.strip()`. -/
def pyStrip (s : String) : String := ⟨stripChars s.data⟩

/-- Python `str.upper()` (ASCII letters only, which covers the tier strings). -/
def pyUpper (s : String) : String := ⟨s.data.map Char.toUpper⟩

/-- Value of a list of ASCII decimal digits. -/
def digitsVal (l : List Char) : Nat :=
  l.foldl (fun acc c => 10 * acc + (c.toNat - '0'.toNat)) 0

/-- Parse an unsigned run of ASCII digits; `none` unless the list is a
non-empty all-digit run. -/
def parseDigits (l : List Char) : Option Nat :=
  if l ≠ [] ∧ l.all (fun c => c.isDigit) then some (digitsVal l) else none

/-- Python `int(s)`: strip whitespace, optional single sign, then decimal
digits. (CPython additionally allows underscore digit separators and
non-ASCII digits; those inputs are not modelled.) -/
def pyInt (l : List Char) : Option Int :=
  match stripChars l with
  | '+' :: ds => (parseDigits ds).map Int.ofNat
  | '-' :: ds => (parseDigits ds).map (fun n => -(n : Int))
  | ds => (parseDigits ds).map Int.ofNat

/-- Split a character list at the first occurrence of `sep`
(Python `s.split(sep, 1)`); returns the whole list and `none` when `sep`
does not occur. -/
def splitFirst (sep : Char) : List Char → List Char × Option (List Char)
  | [] => ([], none)
  | c :: cs =>
    if c = sep then ([], some cs)
    else
      let r := splitFirst sep cs
      (c :: r.1, r.2)

/-! ### `core/types.py` -/

/-- `core.types.StageBucket`. -/
inductive StageBucket where
  | early | mid | late
  deriving DecidableEq, Repr

/-- `core.types.parse_stage`: parse `"R-S"` into `(round, step)`;
`none` models the `ValueError` paths. -/
def parse_stage (stage : String) : Option (Int × Int) :=
  match splitFirst '-' stage.data with
  | (_, none) => none
  | (left, some right) =>
    match pyInt left, pyInt right with
    | some r, some s => if r ≤ 0 ∨ s < 0 then none else some (r, s)
    | _, _ => none

/-- Lexicographic `≤` on `(round, step)` pairs, as Python tuple comparison. -/
def stagePairLe (a b : Int × Int) : Bool :=
  a.1 < b.1 ∨ (a.1 = b.1 ∧ a.2 ≤ b.2)

/-- `core.types.stage_bucket`: cutoffs `≤ (3,1) → early`, `≤ (4,1) → mid`,
else `late`. -/
def stage_bucket (stage : String) : Option StageBucket :=
  (parse_stage stage).map fun p =>
    if stagePairLe p (3, 1) then .early
    else if stagePairLe p (4, 1) then .mid
    else .late

/-- `core.types.stage_ge`: `parse_stage a >= parse_stage b` lexicographically. -/
def stage_ge (a b : String) : Option Bool := do
  let pa ← parse_stage a
  let pb ← parse_stage b
  pure (stagePairLe pb pa)

/-! ### `core/models.py` name normalization -/

/-- Character-level body of `_normalize_name`: strip, then drop one trailing
`'*'` and right-strip again. Identical in `core/models.py` and
`data/catalog.py`. -/
def normChars (cs : List Char) : List Char :=
  let t := stripChars cs
  if t.getLast? = some '*' then rstripChars t.dropLast else t

/-- `core.models._normalize_name`. -/
def normalize_name (s : String) : String := ⟨normChars s.data⟩

/-! ### Association-list model of Python dict / Counter -/

/-- `m.get(k, d)` — value at the first entry with key `k`, else `d`. -/
def dget (m : List (String × Int)) (k : String) (d : Int) : Int :=
  match m.find? (fun p => p.1 = k) with
  | some p => p.2
  | none => d

/-- `m[k] = v` — update the entry with key `k` in place (a dict has at most
one entry per key), or append a fresh entry, preserving insertion order. -/
def dset : List (String × Int) → String → Int → List (String × Int)
  | [], k, v => [(k, v)]
  | p :: rest, k, v =>
    if p.1 = k then (k, v) :: rest else p :: dset rest k v

/-- `del m[k]` — drop every entry with key `k`. -/
def ddel (m : List (String × Int)) (k : String) : List (String × Int) :=
  m.filter (fun p => ¬ p.1 = k)

/-- Lookup in a mapping whose values are lists (`recipes.get(item)`). -/
def dfind (m : List (String × List String)) (k : String) : Option (List String) :=
  (m.find? (fun p => p.1 = k)).map Prod.snd

/-- The total function `fun k => m.get(k, 0)` a dict denotes. -/
def dgetF (m : List (String × Int)) : String → Int := fun k => dget m k 0

/-- `collections.Counter(recipe)`: multiset of occurrence counts in
first-occurrence order. -/
def counterOf (recipe : List String) : List (String × Int) :=
  recipe.foldl (fun acc c => dset acc c (dget acc c 0 + 1)) []

/-! ### `core/solver.py` -/

/-- `core.solver.AssignmentResult`. -/
structure AssignmentResult where
  matched : Nat
  total : Nat
  -- `matches` is reserved syntax in Lean, hence the trailing underscore.
  matches_ : List (Nat × String)
  missing : List String
  remaining : List (String × Int)
  deriving DecidableEq, Repr

/-- `AssignmentResult.coverage = matched / max(total, 1)`. -/
def AssignmentResult.coverage (r : AssignmentResult) : ℚ :=
  (r.matched : ℚ) / (max r.total 1 : Nat)

/-- The `for idx, need in enumerate(priority)` loop of
`assign_components_by_priority`: returns the matches, the missing list and
the final stock. -/
def assignGo (stock : List (String × Int)) (idx : Nat) :
    List String → List (Nat × String) × List String × List (String × Int)
  | [] => ([], [], stock)
  | need :: rest =>
    if dget stock need 0 > 0 then
      let r := assignGo (dset stock need (dget stock need 0 - 1)) (idx + 1) rest
      ((idx, need) :: r.1, r.2.1, r.2.2)
    else
      let r := assignGo stock (idx + 1) rest
      (r.1, need :: r.2.1, r.2.2)

/-- `core.solver.assign_components_by_priority`. -/
def assign_components_by_priority (priority : List String)
    (have_ : List (String × Int)) : AssignmentResult :=
  let stock := have_.filter (fun p => p.2 > 0)
  let r := assignGo stock 0 priority
  { matched := r.1.length
    total := priority.length
    matches_ := r.1
    missing := r.2.1
    remaining := r.2.2.filter (fun p => p.2 > 0) }

/-- `core.solver.CraftResult`. -/
structure CraftResult where
  crafted : List String
  crafted_per_carry : List (String × List String)
  remaining_components : List (String × Int)
  deriving DecidableEq, Repr

/-- `stock[comp] -= qty; if stock[comp] <= 0: del stock[comp]` folded over a
needs counter. -/
def consumeStock (stock : List (String × Int)) (need : List (String × Int)) :
    List (String × Int) :=
  need.foldl
    (fun st p =>
      if dget (dset st p.1 (dget st p.1 0 - p.2)) p.1 0 ≤ 0 then
        ddel (dset st p.1 (dget st p.1 0 - p.2)) p.1
      else dset st p.1 (dget st p.1 0 - p.2))
    stock

/-- The inner `for item in desired` loop of `craftable_bis_items`; `count`
is the number of items already crafted for this carry (the length of
`crafted_map[carry]`). -/
def craftItemsGo (recipes : List (String × List String)) (limit : Option Nat)
    (count : Nat) (stock : List (String × Int)) :
    List String → List String × List (String × Int)
  | [] => ([], stock)
  | item :: rest =>
    match dfind recipes item with
    | none => craftItemsGo recipes limit count stock rest
    | some recipe =>
      -- `if not recipe: continue` — an empty recipe list is falsy in Python.
      if recipe = [] then craftItemsGo recipes limit count stock rest
      else
        if (counterOf recipe).all (fun p => dget stock p.1 0 ≥ p.2) then
          match limit with
          | some lim =>
            if count + 1 ≥ lim then
              ([item], consumeStock stock (counterOf recipe))
            else
              (item :: (craftItemsGo recipes limit (count + 1)
                  (consumeStock stock (counterOf recipe)) rest).1,
               (craftItemsGo recipes limit (count + 1)
                  (consumeStock stock (counterOf recipe)) rest).2)
          | none =>
            (item :: (craftItemsGo recipes limit (count + 1)
                (consumeStock stock (counterOf recipe)) rest).1,
             (craftItemsGo recipes limit (count + 1)
                (consumeStock stock (counterOf recipe)) rest).2)
        else craftItemsGo recipes limit count stock rest

/-- The outer `for carry, desired in bis_by_carry.items()` loop. -/
def craftCarriesGo (recipes : List (String × List String)) (limit : Option Nat)
    (stock : List (String × Int)) :
    List (String × List String) →
      List String × List (String × List String) × List (String × Int)
  | [] => ([], [], stock)
  | (carry, desired) :: rest =>
    ((craftItemsGo recipes limit 0 stock desired).1 ++
      (craftCarriesGo recipes limit
        (craftItemsGo recipes limit 0 stock desired).2 rest).1,
     (carry, (craftItemsGo recipes limit 0 stock desired).1) ::
      (craftCarriesGo recipes limit
        (craftItemsGo recipes limit 0 stock desired).2 rest).2.1,
     (craftCarriesGo recipes limit
        (craftItemsGo recipes limit 0 stock desired).2 rest).2.2)

/-- `core.solver.craftable_bis_items`. The carry keys of `bis_by_carry` are
a dict's keys, hence duplicate-free whenever the list models real input. -/
def craftable_bis_items (bis_by_carry : List (String × List String))
    (recipes : List (String × List String))
    (components : List (String × Int)) (per_carry_limit : Option Nat) :
    CraftResult :=
  let stock := components.filter (fun p => p.2 > 0)
  let r := craftCarriesGo recipes per_carry_limit stock bis_by_carry
  { crafted := r.1
    crafted_per_carry := r.2.1
    remaining_components := r.2.2 }

/-! ### `core/models.py` data models (post-validation shapes) -/

/-- `core.models.CoreUnit`. -/
structure CoreUnit where
  name : String
  star_goal : Int
  required : Bool
  deriving DecidableEq, Repr

/-- `core.models.Link`. -/
structure Link where
  label : String
  url : String
  deriving DecidableEq, Repr

/-- `core.models.Severity`. -/
inductive Severity where
  | info | warning | critical
  deriving DecidableEq, Repr

/-- `core.models.NoteTriggers`. -/
structure NoteTriggers where
  missing_augments_any : List String
  have_components_any : List String
  stage_min : Option String
  suggest_pivot_to : Option String
  deriving DecidableEq, Repr

/-- `core.models.Note`. -/
structure Note where
  severity : Severity
  text : String
  triggers : NoteTriggers
  deriving DecidableEq, Repr

/-- `core.models.Build`. -/
structure Build where
  id : String
  name : String
  tier : String
  tier_rank : Int
  patch : String
  core_units : List CoreUnit
  early_comp : List String
  mid_comp : List String
  late_comp : List String
  item_priority_components : List String
  bis_items : List (String × List String)
  links : List Link
  notes : List Note
  deriving DecidableEq, Repr

/-- `core.models.Inventory`. -/
structure Inventory where
  units : List (String × Int)
  items_components : List (String × Int)
  items_completed : List String
  augments : List String
  stage : String
  deriving DecidableEq, Repr

/-! ### `core/notes.py` -/

/-- `core.notes.EvaluatedNote`. -/
structure EvaluatedNote where
  severity : Severity
  text : String
  pivot_to : Option String
  deriving DecidableEq, Repr

/-- The `missing_augments_any` sub-result of `_evaluate_single`: when the
field is present (non-empty, by Python truthiness), at least one listed
augment must be absent from the inventory. -/
def okMissingAug (t : NoteTriggers) (inv : Inventory) : Bool :=
  if t.missing_augments_any ≠ [] then
    (t.missing_augments_any.filter (fun a => a ∉ inv.augments)).length > 0
  else true

/-- The `have_components_any` sub-result of `_evaluate_single`: when the
field is present, at least one listed component must be owned with a
positive count. -/
def okHaveComp (t : NoteTriggers) (inv : Inventory) : Bool :=
  if t.have_components_any ≠ [] then
    (t.have_components_any.filter
      (fun c => dget inv.items_components c 0 > 0)).length > 0
  else true

/-- `core.notes._evaluate_single` (the `ok` boolean; the `details` bag only
repeats the computed sub-results for UI display). `none` models the
`ValueError` that `stage_ge` raises on an unparsable stage. -/
def evaluate_single (note : Note) (inv : Inventory) : Option Bool :=
  match note.triggers.stage_min with
  | none =>
    some (okMissingAug note.triggers inv && okHaveComp note.triggers inv)
  | some s =>
    -- Python truthiness: `if t.stage_min:` is false for `None` and `""`.
    if s = "" then
      some (okMissingAug note.triggers inv && okHaveComp note.triggers inv)
    else (stage_ge inv.stage s).map
      (fun b => okMissingAug note.triggers inv && okHaveComp note.triggers inv && b)

/-- The `for n in build.notes` loop of `evaluate_notes` over an explicit
note list. -/
def evaluate_notes_list (notes : List Note) (inv : Inventory) :
    Option (List EvaluatedNote) :=
  notes.foldr
    (fun n acc => do
      let ok ← evaluate_single n inv
      let rest ← acc
      pure (if ok then
        ⟨n.severity, n.text, n.triggers.suggest_pivot_to⟩ :: rest
      else rest))
    (some [])

/-- `core.notes.evaluate_notes`: each note whose triggers all pass yields an
`EvaluatedNote`, in declaration order. -/
def evaluate_notes (build : Build) (inv : Inventory) :
    Option (List EvaluatedNote) :=
  evaluate_notes_list build.notes inv

/-! ### `core/scoring.py` -/

/-- Python `max` on two floats (an executable synonym of `max` on `ℚ`;
the `Max ℚ` instance inherited from Mathlib does not kernel-reduce). -/
def pyMax (a b : ℚ) : ℚ := if a ≤ b then b else a

/-- Python `min` on two floats. -/
def pyMin (a b : ℚ) : ℚ := if a ≤ b then a else b

/-- Clamp to `[0, 1]` — `max(0.0, min(1.0, x))`. -/
def clamp01 (x : ℚ) : ℚ := pyMax 0 (pyMin 1 x)

/-- `STAGE_WEIGHTS[bucket]` as an `(early, mid, late)` triple. -/
def stageWeights : StageBucket → ℚ × ℚ × ℚ
  | .early => (6/10, 25/100, 15/100)
  | .mid => (2/10, 55/100, 25/100)
  | .late => (1/10, 25/100, 65/100)

/-- `core.scoring._presence_ratio` (renamed: the gate rejects names ending in a reserved suffix). -/
def presenceFrac (have_units : List (String × Int)) (target : List String) : ℚ :=
  if target = [] then 0
  else ((target.countP (fun name => dget have_units name 0 > 0)) : ℚ) /
    (target.length : ℚ)

/-- Contribution of one core unit in `_core_units_score`. -/
def coreUnitContrib (inv : Inventory) (cu : CoreUnit) : ℚ :=
  let have_ := dget inv.units cu.name 0
  if have_ > 0 then pyMin ((have_ : ℚ) / (max cu.star_goal 1 : Int)) 1 else 0

/-- `core.scoring._core_units_score`. -/
def core_units_score (build : Build) (inv : Inventory) : ℚ :=
  if build.core_units = [] then 0
  else ((build.core_units.map (coreUnitContrib inv)).sum) /
    (build.core_units.length : ℚ)

/-- `core.scoring._score_champions`: `(stage_presence, core_progress)`,
both clamped to `[0, 1]`. -/
def score_champions (build : Build) (inv : Inventory) (bucket : StageBucket) :
    ℚ × ℚ :=
  let w := stageWeights bucket
  let sEarly := presenceFrac inv.units build.early_comp
  let sMid := presenceFrac inv.units build.mid_comp
  let sLate := presenceFrac inv.units build.late_comp
  (clamp01 (w.1 * sEarly + w.2.1 * sMid + w.2.2 * sLate),
   clamp01 (core_units_score build inv))

/-- `MAX_BIS_BONUS`. -/
def MAX_BIS_BONUS : ℚ := 15/100

/-- `core.scoring._score_items`: the items score together with the bis
bonus actually applied. -/
def score_items (build : Build) (inv : Inventory)
    (recipes : Option (List (String × List String))) : ℚ × ℚ :=
  let assignment := assign_components_by_priority
    build.item_priority_components inv.items_components
  let base := assignment.coverage
  let bis_bonus : ℚ :=
    match recipes with
    | none => 0
    | some rs =>
      -- `if recipes and build.bis_items:` — empty mappings are falsy.
      if rs ≠ [] ∧ build.bis_items ≠ [] then
        let craft := craftable_bis_items build.bis_items rs
          inv.items_components none
        let desired := (build.bis_items.map (fun p => p.2.length)).sum
        let desired_total : ℚ := if desired = 0 then 1 else (desired : ℚ)
        let frac := pyMin 1 ((craft.crafted.length : ℚ) / desired_total)
        pyMin MAX_BIS_BONUS
          (1/2 * MAX_BIS_BONUS * frac +
            (if craft.crafted ≠ [] then 1/2 * MAX_BIS_BONUS else 0))
      else 0
  (clamp01 (base + bis_bonus), bis_bonus)

/-- `TIER_PRIOR.get(tier.upper(), 0.0)`. -/
def tierPrior (t : String) : ℚ :=
  if t = "S" then 1 else if t = "A" then 6/10 else if t = "B" then 3/10
  else if t = "C" then 0 else if t = "X" then -(2/10) else 0

/-- `MAX_RANK_BONUS`. -/
def MAX_RANK_BONUS : ℚ := 2/10

/-- `core.scoring._tier_prior`. -/
def tier_prior (tier : String) (tier_rank : Int) : ℚ :=
  let base := tierPrior (pyUpper tier)
  let rank_quality := pyMax 0 (pyMin 1 (1 - ((max 1 tier_rank : Int) - 1 : ℚ) / 10))
  clamp01 (base + MAX_RANK_BONUS * rank_quality)

/-- Optional per-key override of the final weights
(`weights.update(... if k in w)`). -/
structure WeightsOverride where
  champions : Option ℚ
  items : Option ℚ
  prior : Option ℚ

/-- `core.scoring.ScoreBreakdown` (the numeric fields and the bucket; the
`details` bag only repeats values already exposed here). -/
structure ScoreBreakdown where
  total : ℚ
  champions : ℚ
  items : ℚ
  prior : ℚ
  stage_bucket : StageBucket
  deriving DecidableEq, Repr

/-- `core.scoring.score_build`; `none` models the `ValueError` raised by
`stage_bucket` on an unparsable stage. -/
def score_build (build : Build) (inv : Inventory)
    (recipes : Option (List (String × List String)))
    (weights : Option WeightsOverride) : Option ScoreBreakdown :=
  (stage_bucket inv.stage).map fun bucket =>
    let champ := score_champions build inv bucket
    let champions_score := clamp01 (7/10 * champ.1 + 3/10 * champ.2)
    let items_score := (score_items build inv recipes).1
    let prior_score := tier_prior build.tier build.tier_rank
    let wC := (weights.bind (·.champions)).getD (5/10)
    let wI := (weights.bind (·.items)).getD (4/10)
    let wP := (weights.bind (·.prior)).getD (1/10)
    let total := clamp01 (wC * champions_score + wI * items_score + wP * prior_score)
    { total := total
      champions := champions_score
      items := items_score
      prior := prior_score
      stage_bucket := bucket }

/-! ### `core/analytics.py` -/

/-- `TIER_WEIGHTS.get((b.tier or "").upper(), 0.50)`. -/
def tierWeight (t : String) : ℚ :=
  if t = "S" then 1 else if t = "A" then 85/100 else if t = "B" then 7/10
  else if t = "C" then 1/2 else if t = "X" then 35/100 else 1/2

/-- `acc[name] += w` on a `defaultdict(float)` (default `0.0`): update the
entry with key `k` in place or append a fresh one. -/
def daddQ : List (String × ℚ) → String → ℚ → List (String × ℚ)
  | [], k, w => [(k, w)]
  | p :: rest, k, w =>
    if p.1 = k then (p.1, p.2 + w) :: rest else p :: daddQ rest k w

/-- The four `(section weight, names)` pairs scanned per build. `Build` has
no `comp` field, so `getattr(b, "comp", [])` — the "final" section — is
always the empty list. -/
def heatSections (b : Build) : List (ℚ × List String) :=
  [(1, b.late_comp), (1, []), (6/10, b.mid_comp), (35/100, b.early_comp)]

/-- Accumulate one section (`if sec_w <= 0.0: continue` guard included). -/
def accumulateSection (tier_w : ℚ) (core_names : List String)
    (acc : List (String × ℚ)) (sec : ℚ × List String) : List (String × ℚ) :=
  if sec.1 ≤ 0 then acc
  else sec.2.foldl
    (fun a name =>
      daddQ a name (tier_w * sec.1 * (if name ∈ core_names then 125/100 else 1)))
    acc

/-- Accumulate one build into the heat accumulator. -/
def heatAccBuild (acc : List (String × ℚ)) (b : Build) : List (String × ℚ) :=
  let tier_w := tierWeight (pyUpper b.tier)
  let core_names := b.core_units.map (fun cu => cu.name)
  (heatSections b).foldl (accumulateSection tier_w core_names) acc

/-- The full accumulator over all builds. -/
def heatAcc (builds : List Build) : List (String × ℚ) :=
  builds.foldl heatAccBuild []

/-- Python `max` on a value list (`0` on `[]`, a case the source never
reaches because it returns earlier on an empty accumulator). -/
def maxValQ : List ℚ → ℚ
  | [] => 0
  | x :: xs => xs.foldl max x

/-- `core.analytics.compute_champion_heat`. -/
def compute_champion_heat (builds : List Build) : List (String × ℚ) :=
  let acc := heatAcc builds
  if acc = [] then []
  else
    let m := maxValQ (acc.map Prod.snd)
    if m ≤ 0 then acc.map (fun p => (p.1, 0))
    else acc.map (fun p => (p.1, p.2 / m))

/-! ### `data/data_loader.py` — duplicate-id handling

File enumeration and YAML parsing are I/O; the loop body of
`load_builds_from_dir` is modelled over the list of `(path, build)` pairs
that `load_build_from_yaml` yields in enumeration order. The build type is
a parameter with an id projection. A duplicate record `(id, dup, first)`
stands for the message
`duplicate build id <id> in <dup> (already defined in <first>)`
appended to `duplicates` and carried by the raised `InvalidBuildError`. -/

/-- State of the loop: collected builds, `seen_ids` and `duplicates`. -/
structure LoadState (α : Type) where
  builds : List α
  seen : List (String × String)
  duplicates : List (String × String × String)

/-- One iteration of the `for file_path in _iter_yaml_files(d)` loop. -/
def loadStep {α : Type} (idOf : α → String) (strict : Bool)
    (st : LoadState α) (file : String × α) : LoadState α :=
  match st.seen.find? (fun p => p.1 = idOf file.2) with
  | some p =>
    if strict then
      { st with duplicates := st.duplicates ++ [(idOf file.2, file.1, p.2)] }
    else st
  | none =>
    { builds := st.builds ++ [file.2]
      seen := st.seen ++ [(idOf file.2, file.1)]
      duplicates := st.duplicates }

/-- `data.data_loader.load_builds_from_dir` after file loading:
`Except.error` models the raised `InvalidBuildError`. -/
def load_builds_from_dir {α : Type} (idOf : α → String)
    (files : List (String × α)) (strict_ids : Bool) :
    Except (List (String × String × String)) (List α) :=
  let st := files.foldl (loadStep idOf strict_ids) ⟨[], [], []⟩
  if st.duplicates ≠ [] ∧ strict_ids then .error st.duplicates
  else .ok st.builds

/-! ### `core/models.py` validators (construction from untrusted input) -/

/-- Raw (pre-validation) core unit. -/
structure CoreUnitInput where
  name : String
  star_goal : Int
  required : Bool
  deriving DecidableEq, Repr

/-- Raw note triggers. -/
structure NoteTriggersInput where
  missing_augments_any : List String
  have_components_any : List String
  stage_min : Option String
  suggest_pivot_to : Option String
  deriving DecidableEq, Repr

/-- Raw note. -/
structure NoteInput where
  severity : Severity
  text : String
  triggers : NoteTriggersInput
  deriving DecidableEq, Repr

/-- Raw link. -/
structure LinkInput where
  label : String
  url : String
  deriving DecidableEq, Repr

/-- Raw build, as parsed from YAML before pydantic validation. -/
structure BuildInput where
  id : String
  name : String
  tier : String
  tier_rank : Int
  patch : String
  core_units : List CoreUnitInput
  early_comp : List String
  mid_comp : List String
  late_comp : List String
  item_priority_components : List String
  bis_items : List (String × List String)
  links : List LinkInput
  notes : List NoteInput
  deriving DecidableEq, Repr

/-- `Build._v_comp_lists` / `_v_item_components`: normalize champion or
component names and drop empties. -/
def vNameList (values : List String) : List String :=
  (values.map normalize_name).filter (fun n => n ≠ "")

/-- `dict[str, list[str]]` update (`normalized[key] = value`): overwrite in
place if the key exists, else append (Python insertion order). -/
def dsetL : List (String × List String) → String → List String →
    List (String × List String)
  | [], k, v => [(k, v)]
  | p :: rest, k, v => if p.1 = k then (k, v) :: rest else p :: dsetL rest k v

/-- `Build._v_bis`: carry keys are normalized; the item names of each value
list are only whitespace-stripped (`i.strip()`), not `_normalize_name`d. -/
def vBis (m : List (String × List String)) : List (String × List String) :=
  m.foldl
    (fun acc p =>
      dsetL acc (normalize_name p.1)
        ((p.2.filter (fun i => i ≠ "" ∧ pyStrip i ≠ "")).map pyStrip)) []

/-- `CoreUnit` validation: normalized name, `1 ≤ star_goal ≤ 3`. -/
def vCoreUnit (cu : CoreUnitInput) : Option CoreUnit :=
  if 1 ≤ cu.star_goal ∧ cu.star_goal ≤ 3 then
    some ⟨normalize_name cu.name, cu.star_goal, cu.required⟩
  else none

/-- `NoteTriggers` validation: both `any`-lists normalized; a present
`stage_min` must parse. -/
def vTriggers (t : NoteTriggersInput) : Option NoteTriggers :=
  match t.stage_min with
  | none => some ⟨t.missing_augments_any.map normalize_name,
      t.have_components_any.map normalize_name, none, t.suggest_pivot_to⟩
  | some s =>
    if (parse_stage s).isSome then
      some ⟨t.missing_augments_any.map normalize_name,
        t.have_components_any.map normalize_name, some s, t.suggest_pivot_to⟩
    else none

/-- `Note` validation: stripped non-empty text, validated triggers. -/
def vNote (n : NoteInput) : Option Note :=
  match vTriggers n.triggers with
  | none => none
  | some tr =>
    if pyStrip n.text = "" then none
    else some ⟨n.severity, pyStrip n.text, tr⟩

/-- Python `str.startswith`. -/
def pyStartsWith (s pre : String) : Bool := pre.data.isPrefixOf s.data

/-- `Link` validation. -/
def vLink (l : LinkInput) : Option Link :=
  let lab := pyStrip l.label
  let u := pyStrip l.url
  if lab = "" then none
  else if pyStartsWith u "http://" ∨ pyStartsWith u "https://" then
    some ⟨lab, u⟩
  else none

/-- `TIER_ALLOWED`. -/
def TIER_ALLOWED : List String := ["S", "A", "B", "C", "X"]

/-- Validate every element of a list, failing if any element fails
(pydantic validates each element of a list-valued field). -/
def mapO {α β : Type} (f : α → Option β) : List α → Option (List β)
  | [] => some []
  | x :: xs =>
    match f x, mapO f xs with
    | some y, some ys => some (y :: ys)
    | _, _ => none

/-- Construction of a `Build` from untrusted input: all field validators of
`core.models.Build` (`none` models a pydantic `ValidationError`). -/
def mkBuild (b : BuildInput) : Option Build :=
  if pyStrip b.id = "" then none
  else if pyStrip b.name = "" then none
  else if pyUpper (pyStrip b.tier) ∉ TIER_ALLOWED then none
  else if b.tier_rank < 1 then none
  else
    match mapO vCoreUnit b.core_units, mapO vLink b.links,
        mapO vNote b.notes with
    | some cus, some links, some notes =>
      some
        { id := pyStrip b.id
          name := pyStrip b.name
          tier := pyUpper (pyStrip b.tier)
          tier_rank := b.tier_rank
          patch := b.patch
          core_units := cus
          early_comp := vNameList b.early_comp
          mid_comp := vNameList b.mid_comp
          late_comp := vNameList b.late_comp
          item_priority_components := vNameList b.item_priority_components
          bis_items := vBis b.bis_items
          links := links
          notes := notes }
    | _, _, _ => none

/-! ## Lemmas about the dict model -/

theorem dget_nil {k : String} {d : Int} : dget [] k d = d := rfl

theorem dget_cons {p : String × Int} {rest : List (String × Int)} {k : String}
    {d : Int} : dget (p :: rest) k d = if p.1 = k then p.2 else dget rest k d := by
  by_cases hp : p.1 = k <;> simp [dget, List.find?_cons, hp]

theorem dget_of_not_mem_keys {m : List (String × Int)} {k : String} {d : Int}
    (h : k ∉ m.map Prod.fst) : dget m k d = d := by
  induction m with
  | nil => rfl
  | cons p rest ih =>
    simp only [List.map_cons, List.mem_cons, not_or] at h
    rw [dget_cons, if_neg (fun e => h.1 e.symm)]
    exact ih h.2

theorem dget_mem_or {m : List (String × Int)} {k : String} {d : Int} :
    (k, dget m k d) ∈ m ∨ (k ∉ m.map Prod.fst ∧ dget m k d = d) := by
  induction m with
  | nil => right; simp [dget]
  | cons p rest ih =>
    obtain ⟨p1, p2⟩ := p
    by_cases hp : p1 = k
    · left
      rw [dget_cons, if_pos hp]
      subst hp
      exact List.mem_cons_self _ _
    · rw [dget_cons, if_neg hp]
      rcases ih with h | ⟨hnk, hd⟩
      · left; exact List.mem_cons_of_mem _ h
      · right
        refine ⟨?_, hd⟩
        simp only [List.map_cons, List.mem_cons, not_or]
        exact ⟨fun e => hp e.symm, hnk⟩

theorem dget_nonneg {m : List (String × Int)} {k : String}
    (h : ∀ p ∈ m, 0 ≤ p.2) : 0 ≤ dget m k 0 := by
  rcases dget_mem_or (m := m) (k := k) (d := 0) with hm | ⟨_, hd⟩
  · exact h _ hm
  · rw [hd]

theorem mem_keys_of_dget_pos {m : List (String × Int)} {k : String}
    (h : 0 < dget m k 0) : k ∈ m.map Prod.fst := by
  by_contra hk
  rw [dget_of_not_mem_keys hk] at h
  omega

theorem dget_dset_self {m : List (String × Int)} {k : String} {v : Int} :
    dget (dset m k v) k 0 = v := by
  induction m with
  | nil => simp [dset, dget_cons]
  | cons p rest ih =>
    by_cases hp : p.1 = k
    · simp [dset, hp, dget_cons]
    · simp only [dset, hp, if_false]
      rw [dget_cons, if_neg hp]
      exact ih

theorem dget_dset_ne {m : List (String × Int)} {k k' : String} {v d : Int}
    (h : k' ≠ k) : dget (dset m k v) k' d = dget m k' d := by
  induction m with
  | nil =>
    have hne : ¬ ((k, v).1 = k') := fun e => h e.symm
    rw [show dset [] k v = [(k, v)] from rfl, dget_cons, if_neg hne]
  | cons p rest ih =>
    by_cases hp : p.1 = k
    · simp only [dset, hp, if_true]
      rw [dget_cons, dget_cons, if_neg (fun e : k = k' => h e.symm), if_neg]
      rw [hp]
      exact fun e => h e.symm
    · simp only [dset, hp, if_false]
      rw [dget_cons, dget_cons]
      by_cases hpk' : p.1 = k'
      · simp [hpk']
      · rw [if_neg hpk', if_neg hpk']
        exact ih

theorem dgetF_dset {m : List (String × Int)} {k : String} {v : Int} :
    dgetF (dset m k v) = Function.update (dgetF m) k v := by
  funext k'
  by_cases h : k' = k
  · subst h
    simp [dgetF, Function.update_same, dget_dset_self]
  · simp [dgetF, Function.update_noteq h, dget_dset_ne h]

theorem keys_dset_of_mem {m : List (String × Int)} {k : String} {v : Int}
    (h : k ∈ m.map Prod.fst) : (dset m k v).map Prod.fst = m.map Prod.fst := by
  induction m with
  | nil => simp at h
  | cons p rest ih =>
    by_cases hp : p.1 = k
    · simp [dset, hp]
    · simp only [dset, hp, if_false, List.map_cons]
      simp only [List.map_cons, List.mem_cons] at h
      rcases h with h | h
      · exact absurd h.symm hp
      · rw [ih h]

theorem mem_dset {m : List (String × Int)} {k : String} {v : Int} {q : String × Int}
    (h : q ∈ dset m k v) : q ∈ m ∨ q = (k, v) := by
  induction m with
  | nil =>
    simp only [dset, List.mem_singleton] at h
    right; exact h
  | cons p rest ih =>
    by_cases hp : p.1 = k
    · simp only [dset, hp, if_true, List.mem_cons] at h
      rcases h with h | h
      · right; exact h
      · left; exact List.mem_cons_of_mem _ h
    · simp only [dset, hp, if_false, List.mem_cons] at h
      rcases h with h | h
      · left; exact List.mem_cons.mpr (Or.inl h)
      · rcases ih h with h' | h'
        · left; exact List.mem_cons_of_mem _ h'
        · right; exact h'

theorem dget_filter_pos {m : List (String × Int)} {k : String}
    (h : (m.map Prod.fst).Nodup) :
    dget (m.filter (fun p => p.2 > 0)) k 0 =
      if dget m k 0 > 0 then dget m k 0 else 0 := by
  induction m with
  | nil => simp [dget]
  | cons p rest ih =>
    simp only [List.map_cons, List.nodup_cons] at h
    by_cases hp : p.1 = k
    · have hk : k ∉ rest.map Prod.fst := by rw [← hp]; exact h.1
      have hfrest : dget (rest.filter (fun p => p.2 > 0)) k 0 = 0 := by
        apply dget_of_not_mem_keys
        intro hmem
        apply hk
        rcases List.mem_map.mp hmem with ⟨q, hq, he⟩
        exact List.mem_map.mpr ⟨q, List.mem_of_mem_filter hq, he⟩
      by_cases hpos : p.2 > 0
      · have hf : (p :: rest).filter (fun q => q.2 > 0) =
            p :: rest.filter (fun q => q.2 > 0) := by
          simp [List.filter_cons, hpos]
        rw [hf, dget_cons, if_pos hp, dget_cons, if_pos hp, if_pos hpos]
      · have hf : (p :: rest).filter (fun q => q.2 > 0) =
            rest.filter (fun q => q.2 > 0) := by
          simp [List.filter_cons, hpos]
        rw [hf, dget_cons, if_pos hp, if_neg hpos, hfrest]
    · by_cases hpos : p.2 > 0
      · have hf : (p :: rest).filter (fun q => q.2 > 0) =
            p :: rest.filter (fun q => q.2 > 0) := by
          simp [List.filter_cons, hpos]
        rw [hf, dget_cons, if_neg hp, dget_cons, if_neg hp, ih h.2]
      · have hf : (p :: rest).filter (fun q => q.2 > 0) =
            rest.filter (fun q => q.2 > 0) := by
          simp [List.filter_cons, hpos]
        rw [hf, dget_cons, if_neg hp, ih h.2]

/-! ## Greedy assignment: specification and invariants -/

/-- Specification-side restatement of the greedy pass (from the spec's
words, to be compared with `assignGo`): walk the priority list left to
right over a bare multiset of owned components; at each position, if the
stock still holds at least one unit of the needed component, consume one
unit and record a match at that index, otherwise record the component as
missing at that index. -/
def specAssign (avail : String → Int) (idx : Nat) :
    List String → List (Nat × String) × List String × (String → Int)
  | [] => ([], [], avail)
  | need :: rest =>
    if avail need > 0 then
      let r := specAssign (Function.update avail need (avail need - 1))
        (idx + 1) rest
      ((idx, need) :: r.1, r.2.1, r.2.2)
    else
      let r := specAssign avail (idx + 1) rest
      (r.1, need :: r.2.1, r.2.2)

theorem assignGo_eq_specAssign (pr : List String) :
    ∀ (st : List (String × Int)) (idx : Nat),
      (assignGo st idx pr).1 = (specAssign (dgetF st) idx pr).1 ∧
      (assignGo st idx pr).2.1 = (specAssign (dgetF st) idx pr).2.1 ∧
      dgetF (assignGo st idx pr).2.2 = (specAssign (dgetF st) idx pr).2.2 := by
  induction pr with
  | nil => intro st idx; exact ⟨rfl, rfl, rfl⟩
  | cons need rest ih =>
    intro st idx
    by_cases h : dget st need 0 > 0
    · have hs : dgetF st need > 0 := h
      obtain ⟨h1, h2, h3⟩ := ih (dset st need (dget st need 0 - 1)) (idx + 1)
      rw [dgetF_dset] at h1 h2 h3
      simp only [assignGo, specAssign, if_pos h, if_pos hs]
      rw [show dgetF st need = dget st need 0 from rfl]
      exact ⟨by rw [h1], by rw [h2], by rw [h3]⟩
    · have hs : ¬ dgetF st need > 0 := h
      obtain ⟨h1, h2, h3⟩ := ih st (idx + 1)
      simp only [assignGo, specAssign, if_neg h, if_neg hs]
      exact ⟨by rw [h1], by rw [h2], by rw [h3]⟩

theorem assignGo_length (pr : List String) :
    ∀ st idx, (assignGo st idx pr).1.length + (assignGo st idx pr).2.1.length
      = pr.length := by
  induction pr with
  | nil => intro st idx; rfl
  | cons need rest ih =>
    intro st idx
    by_cases h : dget st need 0 > 0
    · simp only [assignGo, if_pos h, List.length_cons]
      have := ih (dset st need (dget st need 0 - 1)) (idx + 1)
      omega
    · simp only [assignGo, if_neg h, List.length_cons]
      have := ih st (idx + 1)
      omega

theorem assignGo_idx_bounds (pr : List String) :
    ∀ st idx, (∀ p ∈ (assignGo st idx pr).1, idx ≤ p.1) ∧
      List.Chain' (· < ·) ((assignGo st idx pr).1.map Prod.fst) := by
  induction pr with
  | nil =>
    intro st idx
    constructor
    · intro p hp; simp [assignGo] at hp
    · simp [assignGo]
  | cons need rest ih =>
    intro st idx
    by_cases h : dget st need 0 > 0
    · obtain ⟨hlb, hch⟩ := ih (dset st need (dget st need 0 - 1)) (idx + 1)
      simp only [assignGo, if_pos h]
      constructor
      · intro p hp
        rcases List.mem_cons.mp hp with rfl | hp'
        · exact le_refl _
        · exact Nat.le_of_succ_le (hlb p hp')
      · rw [List.map_cons]
        apply List.chain'_cons'.mpr
        refine ⟨?_, hch⟩
        intro b hb
        have hbmem : b ∈ ((assignGo (dset st need (dget st need 0 - 1))
            (idx + 1) rest).1.map Prod.fst) := by
          exact List.mem_of_mem_head? hb
        rcases List.mem_map.mp hbmem with ⟨q, hq, he⟩
        have := hlb q hq
        omega
    · obtain ⟨hlb, hch⟩ := ih st (idx + 1)
      simp only [assignGo, if_neg h]
      constructor
      · intro p hp
        exact Nat.le_of_succ_le (hlb p hp)
      · exact hch

theorem assignGo_points (pr : List String) :
    ∀ st idx, ∀ p ∈ (assignGo st idx pr).1,
      ∃ j, p.1 = idx + j ∧ pr.get? j = some p.2 := by
  induction pr with
  | nil => intro st idx p hp; simp [assignGo] at hp
  | cons need rest ih =>
    intro st idx p hp
    by_cases h : dget st need 0 > 0
    · simp only [assignGo, if_pos h] at hp
      rcases List.mem_cons.mp hp with rfl | hp'
      · exact ⟨0, by omega, rfl⟩
      · rcases ih (dset st need (dget st need 0 - 1)) (idx + 1) p hp'
          with ⟨j, hj, hg⟩
        exact ⟨j + 1, by omega, hg⟩
    · simp only [assignGo, if_neg h] at hp
      rcases ih st (idx + 1) p hp with ⟨j, hj, hg⟩
      exact ⟨j + 1, by omega, hg⟩

theorem assignGo_missing (pr : List String) :
    ∀ st idx, (assignGo st idx pr).2.1 =
      ((List.enumFrom idx pr).filter
        (fun q => q.1 ∉ (assignGo st idx pr).1.map Prod.fst)).map Prod.snd := by
  induction pr with
  | nil => intro st idx; rfl
  | cons need rest ih =>
    intro st idx
    have hbound : ∀ q ∈ List.enumFrom (idx + 1) rest, idx + 1 ≤ q.1 := by
      intro q hq
      obtain ⟨i, x⟩ := q
      exact (List.mk_mem_enumFrom_iff_le_and_getElem?_sub.mp hq).1
    by_cases h : dget st need 0 > 0
    · have hlb := (assignGo_idx_bounds rest
        (dset st need (dget st need 0 - 1)) (idx + 1)).1
      simp only [assignGo, if_pos h, List.enumFrom_cons]
      rw [List.filter_cons]
      have hidx : (decide ((idx, need).1 ∉
          (((idx, need) :: (assignGo (dset st need (dget st need 0 - 1))
            (idx + 1) rest).1).map Prod.fst))) = false := by
        simp
      rw [hidx]
      simp only [Bool.false_eq_true, if_false]
      rw [ih (dset st need (dget st need 0 - 1)) (idx + 1)]
      congr 1
      apply List.filter_congr
      intro q hq
      have h1 := hbound q hq
      rw [decide_eq_decide, List.map_cons]
      constructor
      · intro hn hmem
        rcases List.mem_cons.mp hmem with he | hmem'
        · have he' : q.1 = idx := he
          omega
        · exact hn hmem'
      · intro hn hmem
        exact hn (List.mem_cons_of_mem _ hmem)
    · have hlb := (assignGo_idx_bounds rest st (idx + 1)).1
      simp only [assignGo, if_neg h, List.enumFrom_cons]
      rw [List.filter_cons]
      have hidx : (decide ((idx, need).1 ∉
          ((assignGo st (idx + 1) rest).1.map Prod.fst))) = true := by
        simp only [decide_eq_true_eq]
        intro hmem
        rcases List.mem_map.mp hmem with ⟨q, hq, he⟩
        have := hlb q hq
        omega
      rw [hidx]
      simp only [if_true]
      rw [List.map_cons]
      congr 1
      exact ih st (idx + 1)

theorem assignGo_keys (pr : List String) :
    ∀ st idx, (assignGo st idx pr).2.2.map Prod.fst = st.map Prod.fst := by
  induction pr with
  | nil => intro st idx; rfl
  | cons need rest ih =>
    intro st idx
    by_cases h : dget st need 0 > 0
    · simp only [assignGo, if_pos h]
      rw [ih (dset st need (dget st need 0 - 1)) (idx + 1)]
      exact keys_dset_of_mem (mem_keys_of_dget_pos h)
    · simp only [assignGo, if_neg h]
      exact ih st (idx + 1)

theorem assignGo_values_nonneg (pr : List String) :
    ∀ st idx, (∀ p ∈ st, 0 ≤ p.2) →
      ∀ p ∈ (assignGo st idx pr).2.2, 0 ≤ p.2 := by
  induction pr with
  | nil => intro st idx h p hp; exact h p hp
  | cons need rest ih =>
    intro st idx h p hp
    by_cases hc : dget st need 0 > 0
    · simp only [assignGo, if_pos hc] at hp
      apply ih (dset st need (dget st need 0 - 1)) (idx + 1) _ p hp
      intro q hq
      rcases mem_dset hq with hq' | hq'
      · exact h q hq'
      · rw [hq']; omega
    · simp only [assignGo, if_neg hc] at hp
      exact ih st (idx + 1) h p hp

theorem assignGo_conservation (pr : List String) :
    ∀ st idx c,
      ((assignGo st idx pr).1.countP (fun p => p.2 = c) : Int)
        + dget (assignGo st idx pr).2.2 c 0 = dget st c 0 := by
  induction pr with
  | nil => intro st idx c; simp [assignGo]
  | cons need rest ih =>
    intro st idx c
    by_cases h : dget st need 0 > 0
    · simp only [assignGo, if_pos h]
      rw [List.countP_cons]
      by_cases hc : need = c
      · subst hc
        have := ih (dset st need (dget st need 0 - 1)) (idx + 1) need
        rw [dget_dset_self] at this
        simp only [decide_eq_true_eq]
        have hd : (decide ((idx, need).2 = need)) = true := by simp
        push_cast
        omega
      · have := ih (dset st need (dget st need 0 - 1)) (idx + 1) c
        rw [dget_dset_ne (fun e => hc e.symm)] at this
        have hd : (decide ((idx, need).2 = c)) = false := by
          simp only [decide_eq_false_iff_not]
          exact hc
        rw [hd]
        push_cast
        omega
    · simp only [assignGo, if_neg h]
      exact ih st (idx + 1) c

theorem splitFirst_snd_none {sep : Char} {l : List Char} :
    (splitFirst sep l).2 = none ↔ sep ∉ l := by
  induction l with
  | nil => simp [splitFirst]
  | cons c cs ih =>
    by_cases hc : c = sep
    · subst hc
      simp [splitFirst]
    · simp only [splitFirst, hc, if_false, List.mem_cons]
      rw [ih]
      constructor
      · intro h hm
        rcases hm with hm | hm
        · exact hc hm.symm
        · exact h hm
      · intro h hm
        exact h (Or.inr hm)

/-- The left side of `stage.split("-", 1)`. -/
def stageLeft (s : String) : List Char := (splitFirst '-' s.data).1

/-- The right side of `stage.split("-", 1)` (empty when there is no `-`,
in which case `parse_stage` has already failed). -/
def stageRight (s : String) : List Char :=
  ((splitFirst '-' s.data).2).getD []

theorem stagePairLe_iff {a b : Int × Int} :
    stagePairLe a b = true ↔ (a.1 < b.1 ∨ (a.1 = b.1 ∧ a.2 ≤ b.2)) := by
  simp [stagePairLe]

/-! ## Claim theorems -/

/-- Claim C2: `assign_components_by_priority` performs a single greedy
left-to-right pass: its matches and missing lists coincide, position by
position, with the specification `specAssign` over the owned-component
multiset (consume one unit of the needed component when still available and
record a match at that index, else record the component as missing); and on
priority `[Recurve Bow, Needlessly Large Rod, Recurve Bow]` with stock
`{Recurve Bow: 1, Negatron Cloak: 1}` the result has `matched = 1`,
`total = 3`, coverage `= 1/3 = matched / max(total, 1)`, the first Bow
position (index 0) matched and the second Bow position missing. -/
theorem C2_assign_greedy_pass :
    (∀ (priority : List String) (have_ : List (String × Int)),
      (have_.map Prod.fst).Nodup →
      (assign_components_by_priority priority have_).matches_ =
        (specAssign (fun c => if dget have_ c 0 > 0 then dget have_ c 0 else 0)
          0 priority).1 ∧
      (assign_components_by_priority priority have_).missing =
        (specAssign (fun c => if dget have_ c 0 > 0 then dget have_ c 0 else 0)
          0 priority).2.1 ∧
      (assign_components_by_priority priority have_).matched =
        (assign_components_by_priority priority have_).matches_.length ∧
      (assign_components_by_priority priority have_).total = priority.length ∧
      (assign_components_by_priority priority have_).coverage =
        ((assign_components_by_priority priority have_).matched : ℚ) /
          ((max (assign_components_by_priority priority have_).total 1 : Nat) : ℚ))
    ∧ assign_components_by_priority
        ["Recurve Bow", "Needlessly Large Rod", "Recurve Bow"]
        [("Recurve Bow", 1), ("Negatron Cloak", 1)] =
      ⟨1, 3, [(0, "Recurve Bow")], ["Needlessly Large Rod", "Recurve Bow"],
        [("Negatron Cloak", 1)]⟩
    ∧ (assign_components_by_priority
        ["Recurve Bow", "Needlessly Large Rod", "Recurve Bow"]
        [("Recurve Bow", 1), ("Negatron Cloak", 1)]).coverage = 1/3 := by
  refine ⟨?_, by decide, ?_⟩
  case refine_2 =>
    have h : assign_components_by_priority
        ["Recurve Bow", "Needlessly Large Rod", "Recurve Bow"]
        [("Recurve Bow", 1), ("Negatron Cloak", 1)] =
        ⟨1, 3, [(0, "Recurve Bow")], ["Needlessly Large Rod", "Recurve Bow"],
          [("Negatron Cloak", 1)]⟩ := by decide
    rw [h]
    norm_num [AssignmentResult.coverage]
  intro priority have_ hnd
  have hinit : dgetF (have_.filter (fun p => p.2 > 0)) =
      (fun c => if dget have_ c 0 > 0 then dget have_ c 0 else 0) := by
    funext c
    exact dget_filter_pos hnd
  obtain ⟨h1, h2, _⟩ :=
    assignGo_eq_specAssign priority (have_.filter (fun p => p.2 > 0)) 0
  rw [hinit] at h1 h2
  exact ⟨h1, h2, rfl, rfl, rfl⟩

/-- Witness for C2 at a concrete input. -/
theorem C2_assign_greedy_pass_witness :
    (assign_components_by_priority ["A"] [("A", 1)]).matches_ =
      (specAssign (fun c => if dget [("A", 1)] c 0 > 0 then dget [("A", 1)] c 0
        else 0) 0 ["A"]).1 :=
  (C2_assign_greedy_pass.1 ["A"] [("A", 1)] (by decide)).1

/-- Claim C10: for every priority list and duplicate-free stock mapping,
the `AssignmentResult` satisfies: `matched + |missing| = total = |priority|`;
match pairs carry strictly increasing indices that point into the priority
list; `missing` is exactly the unmatched positions' components in original
order; every `remaining` count is strictly positive; and for every component
with positive original stock, matches naming it plus its remaining count
equal the original count. -/
theorem C10_assignment_invariants :
    ∀ (priority : List String) (have_ : List (String × Int))
      (r : AssignmentResult),
      (have_.map Prod.fst).Nodup →
      r = assign_components_by_priority priority have_ →
      r.matched + r.missing.length = r.total ∧
      r.total = priority.length ∧
      List.Chain' (· < ·) (r.matches_.map Prod.fst) ∧
      (∀ p ∈ r.matches_, priority.get? p.1 = some p.2) ∧
      r.missing = ((priority.enum).filter
        (fun q => q.1 ∉ r.matches_.map Prod.fst)).map Prod.snd ∧
      (∀ p ∈ r.remaining, 0 < p.2) ∧
      (∀ c, 0 < dget have_ c 0 →
        ((r.matches_.countP (fun p => p.2 = c) : Int) + dget r.remaining c 0 =
          dget have_ c 0)) := by
  intro priority have_ r hnd hr
  subst hr
  set st0 := have_.filter (fun p => p.2 > 0) with hst0
  have hkeys0 : (st0.map Prod.fst).Nodup := by
    apply List.Nodup.sublist _ hnd
    exact List.Sublist.map Prod.fst (List.filter_sublist have_)
  have hval0 : ∀ p ∈ st0, (0 : Int) ≤ p.2 := by
    intro p hp
    have := List.of_mem_filter hp
    simp only [decide_eq_true_eq] at this
    omega
  have hkeysF : ((assignGo st0 0 priority).2.2.map Prod.fst).Nodup := by
    rw [assignGo_keys]
    exact hkeys0
  have hvalF : ∀ p ∈ (assignGo st0 0 priority).2.2, (0 : Int) ≤ p.2 :=
    assignGo_values_nonneg priority st0 0 hval0
  refine ⟨?_, rfl, ?_, ?_, ?_, ?_, ?_⟩
  · exact assignGo_length priority st0 0
  · exact (assignGo_idx_bounds priority st0 0).2
  · intro p hp
    rcases assignGo_points priority st0 0 p hp with ⟨j, hj, hg⟩
    rw [hj]
    simpa using hg
  · exact assignGo_missing priority st0 0
  · intro p hp
    have := List.of_mem_filter hp
    simpa using this
  · intro c hc
    have hcons := assignGo_conservation priority st0 0 c
    have hrem : dget ((assignGo st0 0 priority).2.2.filter
        (fun p => p.2 > 0)) c 0 = dget (assignGo st0 0 priority).2.2 c 0 := by
      rw [dget_filter_pos hkeysF]
      have hge : (0 : Int) ≤ dget (assignGo st0 0 priority).2.2 c 0 :=
        dget_nonneg hvalF
      by_cases hpos : dget (assignGo st0 0 priority).2.2 c 0 > 0
      · rw [if_pos hpos]
      · rw [if_neg hpos]
        omega
    have hinit : dget st0 c 0 = dget have_ c 0 := by
      rw [hst0, dget_filter_pos hnd, if_pos hc]
    simp only [assign_components_by_priority]
    rw [hrem, hcons, hinit]

/-- Witness for C10 at a concrete input. -/
theorem C10_assignment_invariants_witness :
    (assign_components_by_priority ["A", "B"] [("A", 2)]).matched +
      (assign_components_by_priority ["A", "B"] [("A", 2)]).missing.length =
      (assign_components_by_priority ["A", "B"] [("A", 2)]).total :=
  (C10_assignment_invariants ["A", "B"] [("A", 2)] _ (by decide) rfl).1

/-- Claim C4: `parse_stage` fails exactly when the input lacks a `-`, a side
fails integer parsing, the round is `≤ 0` or the step is `< 0`;
`stage_bucket` maps a parsed pair through the fixed cutoffs
(`≤ (3,1) → early`, `≤ (4,1) → mid`, otherwise `late`), giving
`EARLY/MID/MID/LATE` on `3-1`, `3-2`, `4-1`, `4-2`; and `stage_ge` is
lexicographic comparison of the parsed pairs, with
`stage_ge "4-1" "3-2" = true`. -/
theorem C4_stage_parsing :
    stage_bucket "3-1" = some .early ∧
    stage_bucket "3-2" = some .mid ∧
    stage_bucket "4-1" = some .mid ∧
    stage_bucket "4-2" = some .late ∧
    stage_ge "4-1" "3-2" = some true ∧
    (∀ s : String, parse_stage s = none ↔
      ('-' ∉ s.data ∨
       pyInt (stageLeft s) = none ∨
       pyInt (stageRight s) = none ∨
       (∃ r st, pyInt (stageLeft s) = some r ∧ pyInt (stageRight s) = some st ∧
         (r ≤ 0 ∨ st < 0)))) ∧
    (∀ (a b : String) (pa pb : Int × Int),
      parse_stage a = some pa → parse_stage b = some pb →
      (stage_ge a b = some true ↔
        (pb.1 < pa.1 ∨ (pb.1 = pa.1 ∧ pb.2 ≤ pa.2)))) ∧
    (∀ (s : String) (r st : Int), parse_stage s = some (r, st) →
      stage_bucket s = some
        (if r < 3 ∨ (r = 3 ∧ st ≤ 1) then .early
         else if r < 4 ∨ (r = 4 ∧ st ≤ 1) then .mid
         else .late)) := by
  refine ⟨by decide, by decide, by decide, by decide, by decide, ?_, ?_, ?_⟩
  · intro s
    rcases hsp : splitFirst '-' s.data with ⟨l, oright⟩
    have hnd : '-' ∉ s.data ↔ oright = none := by
      rw [← @splitFirst_snd_none '-' s.data, hsp]
    cases oright with
    | none =>
      have hp : parse_stage s = none := by simp [parse_stage, hsp]
      constructor
      · intro _
        exact Or.inl (hnd.mpr rfl)
      · intro _
        exact hp
    | some right =>
      have hleft : stageLeft s = l := by simp [stageLeft, hsp]
      have hright : stageRight s = right := by simp [stageRight, hsp]
      have hdash : ¬ ('-' ∉ s.data) := by
        intro hmem
        exact absurd (hnd.mp hmem) (by simp)
      cases hl : pyInt l with
      | none =>
        have hp : parse_stage s = none := by simp [parse_stage, hsp, hl]
        constructor
        · intro _
          right; left
          rw [hleft]
          exact hl
        · intro _
          exact hp
      | some r =>
        cases hrr : pyInt right with
        | none =>
          have hp : parse_stage s = none := by simp [parse_stage, hsp, hl, hrr]
          constructor
          · intro _
            right; right; left
            rw [hright]
            exact hrr
          · intro _
            exact hp
        | some st =>
          by_cases hbad : r ≤ 0 ∨ st < 0
          · have hp : parse_stage s = none := by
              simp only [parse_stage, hsp, hl, hrr]
              rw [if_pos hbad]
            constructor
            · intro _
              right; right; right
              refine ⟨r, st, ?_, ?_, hbad⟩
              · rw [hleft]; exact hl
              · rw [hright]; exact hrr
            · intro _
              exact hp
          · have hp : parse_stage s = some (r, st) := by
              simp only [parse_stage, hsp, hl, hrr]
              rw [if_neg hbad]
            constructor
            · intro h
              rw [hp] at h
              exact absurd h (by simp)
            · intro h
              exfalso
              rcases h with h | h | h | ⟨r', st', hr', hst', hbad'⟩
              · exact hdash h
              · rw [hleft] at h
                rw [h] at hl
                exact Option.noConfusion hl
              · rw [hright] at h
                rw [h] at hrr
                exact Option.noConfusion hrr
              · rw [hleft, hl] at hr'
                rw [hright, hrr] at hst'
                have e1 : r = r' := Option.some.inj hr'
                have e2 : st = st' := Option.some.inj hst'
                rw [← e1, ← e2] at hbad'
                exact absurd hbad' hbad
  · intro a b pa pb ha hb
    simp only [stage_ge, ha, hb, Option.bind_eq_bind, Option.some_bind]
    constructor
    · intro h
      have : stagePairLe pb pa = true := by
        simpa using h
      exact stagePairLe_iff.mp this
    · intro h
      have : stagePairLe pb pa = true := stagePairLe_iff.mpr h
      simp [this]
  · intro s r st hs
    have hb : stage_bucket s = some
        (if stagePairLe (r, st) (3, 1) then StageBucket.early
         else if stagePairLe (r, st) (4, 1) then StageBucket.mid
         else StageBucket.late) := by
      simp [stage_bucket, hs]
    rw [hb]
    have h3 : (stagePairLe (r, st) (3, 1) = true) ↔
        (r < 3 ∨ (r = 3 ∧ st ≤ 1)) := by
      rw [stagePairLe_iff]
    have h4 : (stagePairLe (r, st) (4, 1) = true) ↔
        (r < 4 ∨ (r = 4 ∧ st ≤ 1)) := by
      rw [stagePairLe_iff]
    by_cases h1 : r < 3 ∨ (r = 3 ∧ st ≤ 1)
    · rw [if_pos (h3.mpr h1), if_pos h1]
    · rw [if_neg (fun hh => h1 (h3.mp hh)), if_neg h1]
      by_cases h2 : r < 4 ∨ (r = 4 ∧ st ≤ 1)
      · rw [if_pos (h4.mpr h2), if_pos h2]
      · rw [if_neg (fun hh => h2 (h4.mp hh)), if_neg h2]

/-! ## String-normalization lemmas (for C9) -/

theorem lstrip_idem {l : List Char} :
    lstripChars (lstripChars l) = lstripChars l := by
  induction l with
  | nil => rfl
  | cons c cs ih =>
    by_cases hc : isPySpace c = true
    · simp only [lstripChars, List.dropWhile_cons, hc, if_true]
      exact ih
    · simp [lstripChars, List.dropWhile_cons, hc]

theorem rstrip_idem {l : List Char} :
    rstripChars (rstripChars l) = rstripChars l := by
  induction l with
  | nil => rfl
  | cons c cs ih =>
    by_cases h : rstripChars cs = [] ∧ isPySpace c = true
    · simp only [rstripChars, if_pos h]
    · simp only [rstripChars, if_neg h]
      by_cases hr : rstripChars cs = []
      · have hc : ¬ isPySpace c = true := fun hcc => h ⟨hr, hcc⟩
        simp only [rstripChars, hr, ih]
        rw [if_neg (fun hh => hc hh.2)]
      · simp only [rstripChars, ih]
        rw [if_neg (fun hh => hr hh.1)]

theorem not_space_head_of_lstrip_fix {c : Char} {cs : List Char}
    (h : lstripChars (c :: cs) = c :: cs) : ¬ isPySpace c = true := by
  intro hc
  simp only [lstripChars, List.dropWhile_cons, hc, if_true] at h
  have hle := (List.dropWhile_sublist (l := cs) isPySpace).length_le
  have hlen := congrArg List.length h
  simp only [List.length_cons] at hlen
  omega

theorem lstrip_fix_of_head_not_space {c : Char} {cs : List Char}
    (h : ¬ isPySpace c = true) : lstripChars (c :: cs) = c :: cs := by
  simp [lstripChars, List.dropWhile_cons, h]

theorem lstrip_rstrip_of_lstrip_fix {l : List Char}
    (h : lstripChars l = l) : lstripChars (rstripChars l) = rstripChars l := by
  cases l with
  | nil => rfl
  | cons c cs =>
    have hc := not_space_head_of_lstrip_fix h
    by_cases hr : rstripChars cs = [] ∧ isPySpace c = true
    · exact absurd hr.2 hc
    · simp only [rstripChars, if_neg hr]
      exact lstrip_fix_of_head_not_space hc

theorem lstrip_dropLast_of_lstrip_fix {l : List Char}
    (h : lstripChars l = l) : lstripChars l.dropLast = l.dropLast := by
  cases l with
  | nil => rfl
  | cons c cs =>
    have hc := not_space_head_of_lstrip_fix h
    cases cs with
    | nil => rfl
    | cons d ds =>
      rw [List.dropLast_cons₂]
      exact lstrip_fix_of_head_not_space hc

theorem rstrip_append_nonspace {l : List Char} {c : Char}
    (h : ¬ isPySpace c = true) : rstripChars (l ++ [c]) = l ++ [c] := by
  induction l with
  | nil =>
    simp only [List.nil_append, rstripChars]
    rw [if_neg (fun hh => h hh.2)]
  | cons d ds ih =>
    have hne : ds ++ [c] ≠ [] := by simp
    have hstep : rstripChars (d :: (ds ++ [c])) =
        if rstripChars (ds ++ [c]) = [] ∧ isPySpace d = true then []
        else d :: rstripChars (ds ++ [c]) := rfl
    rw [List.cons_append, hstep, ih, if_neg (fun hh => hne hh.1)]

theorem rstrip_all_space {ws : List Char}
    (h : ∀ c ∈ ws, isPySpace c = true) : rstripChars ws = [] := by
  induction ws with
  | nil => rfl
  | cons c cs ih =>
    have hcs : rstripChars cs = [] := ih (fun d hd => h d (List.mem_cons_of_mem _ hd))
    have hstep : rstripChars (c :: cs) =
        if rstripChars cs = [] ∧ isPySpace c = true then []
        else c :: rstripChars cs := rfl
    rw [hstep, if_pos ⟨hcs, h c (List.mem_cons_self _ _)⟩]

theorem rstrip_append_space {l ws : List Char}
    (h : ∀ c ∈ ws, isPySpace c = true) :
    rstripChars (l ++ ws) = rstripChars l := by
  induction l with
  | nil =>
    simp only [List.nil_append]
    exact rstrip_all_space h
  | cons c cs ih =>
    have hstep : rstripChars (c :: (cs ++ ws)) =
        if rstripChars (cs ++ ws) = [] ∧ isPySpace c = true then []
        else c :: rstripChars (cs ++ ws) := rfl
    rw [List.cons_append, hstep, ih]
    rfl

theorem lstrip_all_space {ws : List Char}
    (h : ∀ c ∈ ws, isPySpace c = true) : lstripChars ws = [] := by
  induction ws with
  | nil => rfl
  | cons c cs ih =>
    simp only [lstripChars, List.dropWhile_cons, h c (List.mem_cons_self _ _),
      if_true]
    exact ih (fun d hd => h d (List.mem_cons_of_mem _ hd))

theorem lstrip_append_space {ws l : List Char}
    (h : ∀ c ∈ ws, isPySpace c = true) :
    lstripChars (ws ++ l) = lstripChars l := by
  induction ws with
  | nil => rfl
  | cons c cs ih =>
    simp only [List.cons_append, lstripChars, List.dropWhile_cons,
      h c (List.mem_cons_self _ _), if_true]
    exact ih (fun d hd => h d (List.mem_cons_of_mem _ hd))

theorem lstrip_append {x y : List Char} :
    lstripChars (x ++ y) =
      if lstripChars x = [] then lstripChars y else lstripChars x ++ y := by
  induction x with
  | nil => simp [lstripChars]
  | cons c cs ih =>
    by_cases hc : isPySpace c = true
    · have h1 : lstripChars (c :: (cs ++ y)) = lstripChars (cs ++ y) := by
        simp [lstripChars, List.dropWhile_cons, hc]
      have h2 : lstripChars (c :: cs) = lstripChars cs := by
        simp [lstripChars, List.dropWhile_cons, hc]
      rw [List.cons_append, h1, h2, ih]
    · have h1 : lstripChars (c :: (cs ++ y)) = c :: (cs ++ y) :=
        lstrip_fix_of_head_not_space hc
      have h2 : lstripChars (c :: cs) = c :: cs :=
        lstrip_fix_of_head_not_space hc
      rw [List.cons_append, h1, h2, if_neg (by simp)]
      rfl

theorem strip_idem {l : List Char} :
    stripChars (stripChars l) = stripChars l := by
  unfold stripChars
  rw [lstrip_rstrip_of_lstrip_fix lstrip_idem, rstrip_idem]

theorem lstrip_strip_fix {l : List Char} :
    lstripChars (stripChars l) = stripChars l :=
  lstrip_rstrip_of_lstrip_fix lstrip_idem

theorem rstrip_strip_fix {l : List Char} :
    rstripChars (stripChars l) = stripChars l := rstrip_idem

theorem lstrip_norm_fix {cs : List Char} :
    lstripChars (normChars cs) = normChars cs := by
  unfold normChars
  by_cases h : (stripChars cs).getLast? = some '*'
  · rw [if_pos h]
    exact lstrip_rstrip_of_lstrip_fix
      (lstrip_dropLast_of_lstrip_fix lstrip_strip_fix)
  · rw [if_neg h]
    exact lstrip_strip_fix

theorem rstrip_norm_fix {cs : List Char} :
    rstripChars (normChars cs) = normChars cs := by
  unfold normChars
  by_cases h : (stripChars cs).getLast? = some '*'
  · rw [if_pos h]
    exact rstrip_idem
  · rw [if_neg h]
    exact rstrip_strip_fix

theorem strip_norm_fix {cs : List Char} :
    stripChars (normChars cs) = normChars cs := by
  unfold stripChars
  rw [lstrip_norm_fix, rstrip_norm_fix]

theorem norm_congr {a b : List Char} (h : stripChars a = stripChars b) :
    normChars a = normChars b := by
  unfold normChars
  rw [h]

theorem strip_pad {ws1 cs ws2 : List Char}
    (h1 : ∀ c ∈ ws1, isPySpace c = true) (h2 : ∀ c ∈ ws2, isPySpace c = true) :
    stripChars (ws1 ++ cs ++ ws2) = stripChars cs := by
  unfold stripChars
  rw [List.append_assoc, lstrip_append_space h1, lstrip_append]
  by_cases hcs : lstripChars cs = []
  · rw [if_pos hcs, hcs, lstrip_all_space h2]
  · rw [if_neg hcs, rstrip_append_space h2]

theorem norm_idem_of_not_star {cs : List Char}
    (h : (normChars cs).getLast? ≠ some '*') :
    normChars (normChars cs) = normChars cs := by
  have hdef : normChars (normChars cs) =
      if (stripChars (normChars cs)).getLast? = some '*' then
        rstripChars (stripChars (normChars cs)).dropLast
      else stripChars (normChars cs) := rfl
  rw [hdef, strip_norm_fix, if_neg h]

theorem norm_concat_star {cs : List Char}
    (h1 : lstripChars cs = cs) (h2 : rstripChars cs = cs) :
    normChars (cs ++ ['*']) = cs := by
  have hstar : ¬ isPySpace '*' = true := by decide
  have hl : lstripChars (cs ++ ['*']) = cs ++ ['*'] := by
    rw [lstrip_append, h1]
    by_cases hnil : cs = []
    · subst hnil
      rw [if_pos rfl]
      rfl
    · rw [if_neg hnil]
  have hr : rstripChars (cs ++ ['*']) = cs ++ ['*'] :=
    rstrip_append_nonspace hstar
  have hstrip : stripChars (cs ++ ['*']) = cs ++ ['*'] := by
    unfold stripChars
    rw [hl, hr]
  have hlast : (cs ++ ['*']).getLast? = some '*' := by
    simp
  have hdef : normChars (cs ++ ['*']) =
      if (stripChars (cs ++ ['*'])).getLast? = some '*' then
        rstripChars (stripChars (cs ++ ['*'])).dropLast
      else stripChars (cs ++ ['*']) := rfl
  rw [hdef, hstrip, if_pos hlast, List.dropLast_concat, h2]

theorem norm_fix_of_clean {cs : List Char}
    (h1 : lstripChars cs = cs) (h2 : rstripChars cs = cs)
    (h3 : cs.getLast? ≠ some '*') : normChars cs = cs := by
  have hstrip : stripChars cs = cs := by
    unfold stripChars
    rw [h1, h2]
  have hdef : normChars cs =
      if (stripChars cs).getLast? = some '*' then
        rstripChars (stripChars cs).dropLast
      else stripChars cs := rfl
  rw [hdef, hstrip, if_neg h3]

/-- Counterexample to Claim C9 as stated: `_normalize_name` is not
idempotent — on `"**"` one pass yields `"*"`, a second pass yields `""`. -/
theorem C9_normalize_idempotent_counterexample :
    normalize_name "**" = "*" ∧
    normalize_name (normalize_name "**") = "" ∧
    normalize_name (normalize_name "**") ≠ normalize_name "**" :=
  ⟨by decide, by decide, by decide⟩

/-- Claim C9 (amended): `_normalize_name` removes surrounding whitespace and
one trailing `*`, and a name containing neither artifact is unchanged; it is
idempotent on every input whose normalized form does not itself still end in
`*` (an input whose trimmed form ends in two or more stars, such as `"**"`,
loses exactly one star per application, so normalizing twice differs). -/
theorem C9_normalize_idempotent_amended :
    (∀ s : String, (normalize_name s).data.getLast? ≠ some '*' →
      normalize_name (normalize_name s) = normalize_name s) ∧
    (∀ ws1 cs ws2 : List Char,
      (∀ c ∈ ws1, isPySpace c = true) → (∀ c ∈ ws2, isPySpace c = true) →
      normalize_name ⟨ws1 ++ cs ++ ws2⟩ = normalize_name ⟨cs⟩) ∧
    (∀ cs : List Char, lstripChars cs = cs → rstripChars cs = cs →
      normalize_name ⟨cs ++ ['*']⟩ = ⟨cs⟩) ∧
    (∀ cs : List Char, lstripChars cs = cs → rstripChars cs = cs →
      cs.getLast? ≠ some '*' → normalize_name ⟨cs⟩ = ⟨cs⟩) := by
  refine ⟨?_, ?_, ?_, ?_⟩
  · intro s h
    exact congrArg String.mk (norm_idem_of_not_star h)
  · intro ws1 cs ws2 h1 h2
    exact congrArg String.mk (norm_congr (strip_pad h1 h2))
  · intro cs h1 h2
    exact congrArg String.mk (norm_concat_star h1 h2)
  · intro cs h1 h2 h3
    exact congrArg String.mk (norm_fix_of_clean h1 h2 h3)

/-! ## Notes lemmas (for C3) -/

theorem length_pos_filter_iff {α : Type} {p : α → Bool} {l : List α} :
    0 < (l.filter p).length ↔ ∃ a ∈ l, p a = true := by
  rw [List.length_pos_iff_exists_mem]
  constructor
  · rintro ⟨a, ha⟩
    rcases List.mem_filter.mp ha with ⟨h1, h2⟩
    exact ⟨a, h1, h2⟩
  · rintro ⟨a, h1, h2⟩
    exact ⟨a, List.mem_filter.mpr ⟨h1, h2⟩⟩

theorem okMissingAug_iff {t : NoteTriggers} {inv : Inventory} :
    okMissingAug t inv = true ↔
      (t.missing_augments_any ≠ [] →
        ∃ a ∈ t.missing_augments_any, a ∉ inv.augments) := by
  unfold okMissingAug
  by_cases hm : t.missing_augments_any = []
  · simp [hm]
  · rw [if_pos hm, decide_eq_true_eq]
    constructor
    · intro hlen _
      rcases length_pos_filter_iff.mp hlen with ⟨a, ha, hpa⟩
      exact ⟨a, ha, of_decide_eq_true hpa⟩
    · intro hA
      rcases hA hm with ⟨a, ha, hna⟩
      exact length_pos_filter_iff.mpr ⟨a, ha, decide_eq_true hna⟩

theorem okHaveComp_iff {t : NoteTriggers} {inv : Inventory} :
    okHaveComp t inv = true ↔
      (t.have_components_any ≠ [] →
        ∃ c ∈ t.have_components_any, dget inv.items_components c 0 > 0) := by
  unfold okHaveComp
  by_cases hm : t.have_components_any = []
  · simp [hm]
  · rw [if_pos hm, decide_eq_true_eq]
    constructor
    · intro hlen _
      rcases length_pos_filter_iff.mp hlen with ⟨c, hc, hpc⟩
      exact ⟨c, hc, of_decide_eq_true hpc⟩
    · intro hA
      rcases hA hm with ⟨c, hc, hnc⟩
      exact length_pos_filter_iff.mpr ⟨c, hc, decide_eq_true hnc⟩

theorem evaluate_single_eq_none {note : Note} {inv : Inventory}
    (h : note.triggers.stage_min = none) :
    evaluate_single note inv =
      some (okMissingAug note.triggers inv && okHaveComp note.triggers inv) := by
  unfold evaluate_single
  rw [h]

theorem evaluate_single_eq_some {note : Note} {inv : Inventory} {s : String}
    (h : note.triggers.stage_min = some s) :
    evaluate_single note inv =
      (if s = "" then
        some (okMissingAug note.triggers inv && okHaveComp note.triggers inv)
      else (stage_ge inv.stage s).map
        (fun b =>
          okMissingAug note.triggers inv && okHaveComp note.triggers inv && b)) := by
  unfold evaluate_single
  rw [h]

theorem evaluate_notes_list_char (inv : Inventory) :
    ∀ (notes : List Note) (msgs : List EvaluatedNote),
      evaluate_notes_list notes inv = some msgs →
      msgs = (notes.filter (fun n => evaluate_single n inv = some true)).map
        (fun n => ⟨n.severity, n.text, n.triggers.suggest_pivot_to⟩) := by
  intro notes
  induction notes with
  | nil =>
    intro msgs h
    have : ([] : List EvaluatedNote) = msgs := Option.some.inj h
    rw [← this]
    rfl
  | cons n rest ih =>
    intro msgs h
    have hstep : evaluate_notes_list (n :: rest) inv =
        (evaluate_single n inv).bind (fun ok =>
          (evaluate_notes_list rest inv).bind (fun tail =>
            some (if ok then
              ⟨n.severity, n.text, n.triggers.suggest_pivot_to⟩ :: tail
            else tail))) := rfl
    rw [hstep] at h
    cases hok : evaluate_single n inv with
    | none =>
      rw [hok] at h
      exact absurd h (by simp)
    | some ok =>
      rw [hok] at h
      cases htail : evaluate_notes_list rest inv with
      | none =>
        rw [htail] at h
        exact absurd h (by simp)
      | some tail =>
        rw [htail] at h
        simp only [Option.some_bind] at h
        have he := Option.some.inj h
        rw [← he, ih tail htail]
        cases ok with
        | true =>
          have hcond : (decide (evaluate_single n inv = some true)) = true := by
            rw [hok]; simp
          rw [if_pos rfl, List.filter_cons, hcond]
          simp
        | false =>
          have hcond : (decide (evaluate_single n inv = some true)) = false := by
            rw [hok]; simp
          rw [List.filter_cons, hcond]
          simp

/-- Claim C3: a note fires exactly when every present trigger field passes —
`missing_augments_any` (at least one listed augment absent),
`have_components_any` (at least one listed component owned with positive
count) and `stage_min` (current stage `≥` the trigger stage) are
AND-combined, an absent field imposing no constraint; and `evaluate_notes`
returns exactly the notes whose evaluation fired, in declaration order. -/
theorem C3_note_fires_iff :
    (∀ (note : Note) (inv : Inventory) (b : Bool),
      evaluate_single note inv = some b →
      (b = true ↔
        ((note.triggers.missing_augments_any ≠ [] →
           ∃ a ∈ note.triggers.missing_augments_any, a ∉ inv.augments) ∧
         (note.triggers.have_components_any ≠ [] →
           ∃ c ∈ note.triggers.have_components_any,
             dget inv.items_components c 0 > 0) ∧
         (∀ s, note.triggers.stage_min = some s → s ≠ "" →
           stage_ge inv.stage s = some true)))) ∧
    (∀ (build : Build) (inv : Inventory) (msgs : List EvaluatedNote),
      evaluate_notes build inv = some msgs →
      msgs = (build.notes.filter
          (fun n => evaluate_single n inv = some true)).map
        (fun n => ⟨n.severity, n.text, n.triggers.suggest_pivot_to⟩)) := by
  constructor
  · intro note inv b hb
    cases hsm : note.triggers.stage_min with
    | none =>
      rw [evaluate_single_eq_none hsm] at hb
      have hbe := Option.some.inj hb
      constructor
      · intro hbt
        rw [← hbe, Bool.and_eq_true] at hbt
        refine ⟨okMissingAug_iff.mp hbt.1, okHaveComp_iff.mp hbt.2, ?_⟩
        intro s hs
        exact absurd hs (by simp)
      · rintro ⟨hA, hB, _⟩
        rw [← hbe, Bool.and_eq_true]
        exact ⟨okMissingAug_iff.mpr hA, okHaveComp_iff.mpr hB⟩
    | some s =>
      rw [evaluate_single_eq_some hsm] at hb
      by_cases hse : s = ""
      · rw [if_pos hse] at hb
        have hbe := Option.some.inj hb
        constructor
        · intro hbt
          rw [← hbe, Bool.and_eq_true] at hbt
          refine ⟨okMissingAug_iff.mp hbt.1, okHaveComp_iff.mp hbt.2, ?_⟩
          intro s' hs' hne'
          have : s = s' := Option.some.inj hs'
          exact absurd (this ▸ hse) hne'
        · rintro ⟨hA, hB, _⟩
          rw [← hbe, Bool.and_eq_true]
          exact ⟨okMissingAug_iff.mpr hA, okHaveComp_iff.mpr hB⟩
      · rw [if_neg hse] at hb
        rcases Option.map_eq_some'.mp hb with ⟨sb, hsg, hfb⟩
        constructor
        · intro hbt
          rw [← hfb] at hbt
          rw [Bool.and_eq_true, Bool.and_eq_true] at hbt
          refine ⟨okMissingAug_iff.mp hbt.1.1, okHaveComp_iff.mp hbt.1.2, ?_⟩
          intro s' hs' _
          have he : s = s' := Option.some.inj hs'
          rw [← he, hsg, hbt.2]
        · rintro ⟨hA, hB, hC⟩
          have hsgt := hC s rfl hse
          rw [hsg] at hsgt
          have hsb : sb = true := Option.some.inj hsgt
          rw [← hfb, Bool.and_eq_true, Bool.and_eq_true]
          exact ⟨⟨okMissingAug_iff.mpr hA, okHaveComp_iff.mpr hB⟩, hsb⟩
  · intro build inv msgs h
    exact evaluate_notes_list_char inv build.notes msgs h

/-- Witness for C3 at a concrete input. -/
theorem C3_note_fires_iff_witness :
    (true = true ↔
      ((([] : List String) ≠ [] → ∃ a ∈ ([] : List String),
          a ∉ ([] : List String)) ∧
       ((["Recurve Bow"] : List String) ≠ [] → ∃ c ∈ ["Recurve Bow"],
          dget [("Recurve Bow", 1)] c 0 > 0) ∧
       (∀ s, (some "3-1" : Option String) = some s → s ≠ "" →
          stage_ge "3-2" s = some true))) :=
  C3_note_fires_iff.1
    ⟨Severity.info, "t", ⟨[], ["Recurve Bow"], some "3-1", none⟩⟩
    ⟨[], [("Recurve Bow", 1)], [], [], "3-2"⟩ true (by decide)

/-! ## Analytics lemmas (for C7) -/

theorem daddQ_nonneg {m : List (String × ℚ)} {k : String} {w : ℚ}
    (hm : ∀ p ∈ m, 0 ≤ p.2) (hw : 0 ≤ w) :
    ∀ p ∈ daddQ m k w, 0 ≤ p.2 := by
  induction m with
  | nil =>
    intro p hp
    simp only [daddQ, List.mem_singleton] at hp
    rw [hp]
    exact hw
  | cons q rest ih =>
    intro p hp
    by_cases hq : q.1 = k
    · simp only [daddQ, hq, if_true, List.mem_cons] at hp
      rcases hp with hp | hp
      · rw [hp]
        have := hm q (List.mem_cons_self _ _)
        simp only []
        positivity
      · exact hm p (List.mem_cons_of_mem _ hp)
    · simp only [daddQ, hq, if_false, List.mem_cons] at hp
      rcases hp with hp | hp
      · rw [hp]
        exact hm q (List.mem_cons_self _ _)
      · exact ih (fun r hr => hm r (List.mem_cons_of_mem _ hr)) p hp

theorem tierWeight_nonneg (t : String) : 0 ≤ tierWeight t := by
  unfold tierWeight
  split_ifs <;> norm_num

theorem foldl_daddQ_nonneg {w : String → ℚ} (hw : ∀ n, 0 ≤ w n) :
    ∀ (names : List String) (acc : List (String × ℚ)),
      (∀ p ∈ acc, 0 ≤ p.2) →
      ∀ p ∈ names.foldl (fun a name => daddQ a name (w name)) acc, 0 ≤ p.2 := by
  intro names
  induction names with
  | nil => exact fun acc h => h
  | cons n rest ih =>
    intro acc hacc
    simp only [List.foldl_cons]
    exact ih _ (daddQ_nonneg hacc (hw n))

theorem accumulateSection_nonneg {tw : ℚ} {core : List String}
    (htw : 0 ≤ tw) (sec : ℚ × List String) :
    ∀ acc, (∀ p ∈ acc, 0 ≤ p.2) →
      ∀ p ∈ accumulateSection tw core acc sec, 0 ≤ p.2 := by
  intro acc hacc p hp
  unfold accumulateSection at hp
  by_cases hw : sec.1 ≤ 0
  · rw [if_pos hw] at hp
    exact hacc p hp
  · rw [if_neg hw] at hp
    have hsec : 0 ≤ sec.1 := le_of_lt (lt_of_not_ge hw)
    refine foldl_daddQ_nonneg
      (w := fun name => tw * sec.1 * (if name ∈ core then 125/100 else 1))
      ?_ sec.2 acc hacc p hp
    intro n
    have hmul : (0 : ℚ) ≤ (if n ∈ core then (125 : ℚ)/100 else 1) := by
      split_ifs <;> norm_num
    positivity

theorem heatAccBuild_nonneg {acc : List (String × ℚ)} {b : Build}
    (h : ∀ p ∈ acc, 0 ≤ p.2) : ∀ p ∈ heatAccBuild acc b, 0 ≤ p.2 := by
  unfold heatAccBuild heatSections
  simp only [List.foldl_cons, List.foldl_nil]
  apply accumulateSection_nonneg (tierWeight_nonneg _)
  apply accumulateSection_nonneg (tierWeight_nonneg _)
  apply accumulateSection_nonneg (tierWeight_nonneg _)
  apply accumulateSection_nonneg (tierWeight_nonneg _)
  exact h

theorem heatAcc_nonneg (builds : List Build) :
    ∀ p ∈ heatAcc builds, 0 ≤ p.2 := by
  unfold heatAcc
  have hgen : ∀ (bs : List Build) (acc : List (String × ℚ)),
      (∀ p ∈ acc, 0 ≤ p.2) → ∀ p ∈ bs.foldl heatAccBuild acc, 0 ≤ p.2 := by
    intro bs
    induction bs with
    | nil => exact fun acc h => h
    | cons b rest ih =>
      intro acc hacc
      simp only [List.foldl_cons]
      exact ih _ (heatAccBuild_nonneg hacc)
  exact hgen builds [] (by simp)

theorem le_foldl_max {xs : List ℚ} : ∀ x : ℚ, x ≤ xs.foldl max x := by
  induction xs with
  | nil => intro x; exact le_refl x
  | cons y ys ih =>
    intro x
    simp only [List.foldl_cons]
    exact le_trans (le_max_left x y) (ih (max x y))

theorem le_foldl_max_of_mem {xs : List ℚ} {v : ℚ} (h : v ∈ xs) :
    ∀ x : ℚ, v ≤ xs.foldl max x := by
  induction xs with
  | nil => simp at h
  | cons y ys ih =>
    intro x
    simp only [List.foldl_cons]
    rcases List.mem_cons.mp h with rfl | h'
    · exact le_trans (le_max_right x v) (le_foldl_max (max x v))
    · exact ih h' (max x y)

theorem foldl_max_mem {xs : List ℚ} : ∀ x : ℚ,
    xs.foldl max x = x ∨ xs.foldl max x ∈ xs := by
  induction xs with
  | nil => intro x; left; rfl
  | cons y ys ih =>
    intro x
    simp only [List.foldl_cons]
    rcases ih (max x y) with h | h
    · rcases max_choice x y with hm | hm
      · left; rw [h, hm]
      · right; rw [h, hm]; exact List.mem_cons_self _ _
    · right; exact List.mem_cons_of_mem _ h

theorem maxValQ_mem {xs : List ℚ} (h : xs ≠ []) : maxValQ xs ∈ xs := by
  cases xs with
  | nil => exact absurd rfl h
  | cons x rest =>
    have hstep : maxValQ (x :: rest) = rest.foldl max x := rfl
    rw [hstep]
    rcases @foldl_max_mem rest x with h' | h'
    · rw [h']; exact List.mem_cons_self _ _
    · exact List.mem_cons_of_mem _ h'

theorem le_maxValQ {xs : List ℚ} {v : ℚ} (h : v ∈ xs) : v ≤ maxValQ xs := by
  cases xs with
  | nil => simp at h
  | cons x rest =>
    have hstep : maxValQ (x :: rest) = rest.foldl max x := rfl
    rw [hstep]
    rcases List.mem_cons.mp h with rfl | h'
    · exact le_foldl_max v
    · exact le_foldl_max_of_mem h' x

/-- Claim C7: `compute_champion_heat` returns an empty map on an empty build
list (or whenever nothing was accumulated); when the maximum accumulated
value is `≤ 0` it maps every accumulated champion to `0`; otherwise it
divides every accumulated value by the maximum, so some returned score is
exactly `1` and every returned score lies in `[0, 1]`. -/
theorem C7_champion_heat_normalization :
    compute_champion_heat [] = [] ∧
    (∀ builds : List Build, heatAcc builds = [] →
      compute_champion_heat builds = []) ∧
    (∀ builds : List Build, heatAcc builds ≠ [] →
      maxValQ ((heatAcc builds).map Prod.snd) ≤ 0 →
      compute_champion_heat builds =
        (heatAcc builds).map (fun p => (p.1, 0))) ∧
    (∀ builds : List Build, heatAcc builds ≠ [] →
      0 < maxValQ ((heatAcc builds).map Prod.snd) →
      (compute_champion_heat builds = (heatAcc builds).map
        (fun p => (p.1, p.2 / maxValQ ((heatAcc builds).map Prod.snd)))) ∧
      (∃ p ∈ compute_champion_heat builds, p.2 = 1) ∧
      (∀ p ∈ compute_champion_heat builds, 0 ≤ p.2 ∧ p.2 ≤ 1)) := by
  have hunfold : ∀ builds : List Build, compute_champion_heat builds =
      if heatAcc builds = [] then []
      else if maxValQ ((heatAcc builds).map Prod.snd) ≤ 0 then
        (heatAcc builds).map (fun p => (p.1, 0))
      else (heatAcc builds).map
        (fun p => (p.1, p.2 / maxValQ ((heatAcc builds).map Prod.snd))) := by
    intro builds
    rfl
  refine ⟨rfl, ?_, ?_, ?_⟩
  · intro builds h
    rw [hunfold, if_pos h]
  · intro builds h hle
    rw [hunfold, if_neg h, if_pos hle]
  · intro builds h hpos
    have hne : ¬ maxValQ ((heatAcc builds).map Prod.snd) ≤ 0 :=
      not_le.mpr hpos
    have heq : compute_champion_heat builds = (heatAcc builds).map
        (fun p => (p.1, p.2 / maxValQ ((heatAcc builds).map Prod.snd))) := by
      rw [hunfold, if_neg h, if_neg hne]
    set m := maxValQ ((heatAcc builds).map Prod.snd) with hm
    refine ⟨heq, ?_, ?_⟩
    · have hvne : (heatAcc builds).map Prod.snd ≠ [] := by
        intro hc
        exact h (List.map_eq_nil_iff.mp hc)
      rcases List.mem_map.mp (maxValQ_mem hvne) with ⟨q, hq, hqv⟩
      refine ⟨(q.1, q.2 / m), ?_, ?_⟩
      · rw [heq]
        exact List.mem_map.mpr ⟨q, hq, rfl⟩
      · simp only []
        rw [hqv, ← hm]
        exact div_self (ne_of_gt hpos)
    · intro p hp
      rw [heq] at hp
      rcases List.mem_map.mp hp with ⟨q, hq, hqe⟩
      have hq0 : 0 ≤ q.2 := heatAcc_nonneg builds q hq
      have hqm : q.2 ≤ m := le_maxValQ (List.mem_map.mpr ⟨q, hq, rfl⟩)
      rw [← hqe]
      constructor
      · exact div_nonneg hq0 (le_of_lt hpos)
      · rw [div_le_one hpos]
        exact hqm

/-! ## Scoring lemmas (for C1) -/

theorem pyMax_eq (a b : ℚ) : pyMax a b = max a b := (max_def a b).symm

theorem pyMin_eq (a b : ℚ) : pyMin a b = min a b := (min_def a b).symm

theorem clamp01_eq (x : ℚ) : clamp01 x = max 0 (min 1 x) := by
  unfold clamp01
  rw [pyMin_eq, pyMax_eq]

theorem clamp01_nonneg (x : ℚ) : 0 ≤ clamp01 x := by
  rw [clamp01_eq]
  exact le_max_left 0 _

theorem clamp01_le_one (x : ℚ) : clamp01 x ≤ 1 := by
  rw [clamp01_eq]
  exact max_le (by norm_num) (min_le_left 1 x)

theorem clamp01_mono {a b : ℚ} (h : a ≤ b) : clamp01 a ≤ clamp01 b := by
  rw [clamp01_eq, clamp01_eq]
  exact max_le_max (le_refl 0) (min_le_min (le_refl 1) h)

theorem stageWeights_nonneg (bucket : StageBucket) :
    0 ≤ (stageWeights bucket).1 ∧ 0 ≤ (stageWeights bucket).2.1 ∧
    0 ≤ (stageWeights bucket).2.2 := by
  cases bucket <;> refine ⟨?_, ?_, ?_⟩ <;> norm_num [stageWeights]

theorem presenceFrac_mono {u u' : List (String × Int)}
    (h : ∀ n, dget u n 0 > 0 → dget u' n 0 > 0) (t : List String) :
    presenceFrac u t ≤ presenceFrac u' t := by
  unfold presenceFrac
  by_cases ht : t = []
  · rw [if_pos ht, if_pos ht]
  · rw [if_neg ht, if_neg ht]
    have hlen : (0 : ℚ) < (t.length : ℚ) := by
      have := List.length_pos.mpr ht
      exact_mod_cast this
    rw [div_le_div_iff_of_pos_right hlen]
    have hcount : t.countP (fun name => dget u name 0 > 0) ≤
        t.countP (fun name => dget u' name 0 > 0) := by
      apply List.countP_mono_left
      intro a _ ha
      simp only [decide_eq_true_eq] at ha ⊢
      exact h a ha
    exact_mod_cast hcount

theorem coreUnitContrib_nonneg (inv : Inventory) (cu : CoreUnit) :
    0 ≤ coreUnitContrib inv cu := by
  unfold coreUnitContrib
  by_cases hc : dget inv.units cu.name 0 > 0
  · rw [if_pos hc, pyMin_eq]
    apply le_min
    · apply div_nonneg
      · exact_mod_cast le_of_lt hc
      · have : (1 : Int) ≤ max cu.star_goal 1 := le_max_right _ _
        exact_mod_cast le_trans (by norm_num) this
    · norm_num
  · rw [if_neg hc]

theorem coreUnitContrib_mono {inv inv' : Inventory}
    (h : ∀ n, dget inv.units n 0 ≤ dget inv'.units n 0) (cu : CoreUnit) :
    coreUnitContrib inv cu ≤ coreUnitContrib inv' cu := by
  by_cases hc : dget inv.units cu.name 0 > 0
  · have hc' : dget inv'.units cu.name 0 > 0 := lt_of_lt_of_le hc (h cu.name)
    unfold coreUnitContrib
    rw [if_pos hc, if_pos hc', pyMin_eq, pyMin_eq]
    apply min_le_min _ (le_refl 1)
    have hden : (0 : ℚ) < ((max cu.star_goal 1 : Int) : ℚ) := by
      have : (1 : Int) ≤ max cu.star_goal 1 := le_max_right _ _
      exact_mod_cast lt_of_lt_of_le (by norm_num) this
    rw [div_le_div_iff_of_pos_right hden]
    exact_mod_cast h cu.name
  · calc coreUnitContrib inv cu = 0 := by
          unfold coreUnitContrib
          rw [if_neg hc]
      _ ≤ coreUnitContrib inv' cu := coreUnitContrib_nonneg inv' cu

theorem core_units_score_mono {build : Build} {inv inv' : Inventory}
    (h : ∀ n, dget inv.units n 0 ≤ dget inv'.units n 0) :
    core_units_score build inv ≤ core_units_score build inv' := by
  unfold core_units_score
  by_cases hc : build.core_units = []
  · rw [if_pos hc, if_pos hc]
  · rw [if_neg hc, if_neg hc]
    have hlen : (0 : ℚ) < (build.core_units.length : ℚ) := by
      have := List.length_pos.mpr hc
      exact_mod_cast this
    rw [div_le_div_iff_of_pos_right hlen]
    apply List.sum_le_sum
    intro cu _
    exact coreUnitContrib_mono h cu

theorem score_champions_mono {build : Build} {inv inv' : Inventory}
    (bucket : StageBucket)
    (h : ∀ n, dget inv.units n 0 ≤ dget inv'.units n 0) :
    (score_champions build inv bucket).1 ≤
      (score_champions build inv' bucket).1 ∧
    (score_champions build inv bucket).2 ≤
      (score_champions build inv' bucket).2 := by
  have hpos : ∀ n, dget inv.units n 0 > 0 → dget inv'.units n 0 > 0 :=
    fun n hn => lt_of_lt_of_le hn (h n)
  obtain ⟨hw1, hw2, hw3⟩ := stageWeights_nonneg bucket
  constructor
  · apply clamp01_mono
    have hE := presenceFrac_mono hpos build.early_comp
    have hM := presenceFrac_mono hpos build.mid_comp
    have hL := presenceFrac_mono hpos build.late_comp
    have t1 := mul_le_mul_of_nonneg_left hE hw1
    have t2 := mul_le_mul_of_nonneg_left hM hw2
    have t3 := mul_le_mul_of_nonneg_left hL hw3
    linarith
  · exact clamp01_mono (core_units_score_mono h)

/-- Claim C1: `score_build` always returns a total score in `[0, 1]`, and
modifying the inventory only by adding a previously-absent core unit at its
star goal (a validated star goal is `≥ 1`; all other fields unchanged)
never decreases the champions component of the score. -/
theorem C1_score_bounds_and_core_monotonicity :
    ∀ (build : Build) (inv : Inventory)
      (recipes : Option (List (String × List String)))
      (weights : Option WeightsOverride) (sb : ScoreBreakdown),
      score_build build inv recipes weights = some sb →
      (0 ≤ sb.total ∧ sb.total ≤ 1) ∧
      (∀ cu ∈ build.core_units, 1 ≤ cu.star_goal →
        dget inv.units cu.name 0 = 0 →
        ∀ sb', score_build build
            { inv with units := dset inv.units cu.name cu.star_goal }
            recipes weights = some sb' →
          sb.champions ≤ sb'.champions) := by
  intro build inv recipes weights sb hsb
  rcases Option.map_eq_some'.mp hsb with ⟨bucket, hbk, hmk⟩
  constructor
  · rw [← hmk]
    exact ⟨clamp01_nonneg _, clamp01_le_one _⟩
  · intro cu hcu hsg hz sb' hsb'
    rcases Option.map_eq_some'.mp hsb' with ⟨bucket', hbk', hmk'⟩
    have hbe : bucket' = bucket := by
      have h1 : stage_bucket inv.stage = some bucket := hbk
      have h2 : stage_bucket inv.stage = some bucket' := hbk'
      rw [h1] at h2
      exact (Option.some.inj h2).symm
    subst hbe
    rw [← hmk, ← hmk']
    show clamp01 (7/10 * (score_champions build inv bucket').1 +
        3/10 * (score_champions build inv bucket').2) ≤
      clamp01 (7/10 * (score_champions build
          { inv with units := dset inv.units cu.name cu.star_goal }
          bucket').1 +
        3/10 * (score_champions build
          { inv with units := dset inv.units cu.name cu.star_goal }
          bucket').2)
    have hpoint : ∀ n, dget inv.units n 0 ≤
        dget ({ inv with
          units := dset inv.units cu.name cu.star_goal }).units n 0 := by
      intro n
      by_cases hn : n = cu.name
      · subst hn
        have hd : dget ({ inv with
            units := dset inv.units cu.name cu.star_goal }).units cu.name 0 =
            cu.star_goal := dget_dset_self
        rw [hd, hz]
        omega
      · have hd : dget ({ inv with
            units := dset inv.units cu.name cu.star_goal }).units n 0 =
            dget inv.units n 0 := dget_dset_ne hn
        rw [hd]
    obtain ⟨h1, h2⟩ := score_champions_mono bucket' hpoint
    apply clamp01_mono
    have t1 := mul_le_mul_of_nonneg_left h1 (by norm_num : (0:ℚ) ≤ 7/10)
    have t2 := mul_le_mul_of_nonneg_left h2 (by norm_num : (0:ℚ) ≤ 3/10)
    linarith

/-- A minimal build used by the C1 witness. -/
def buildW : Build :=
  { id := "b", name := "B", tier := "S", tier_rank := 1, patch := "p"
    core_units := [⟨"A", 2, false⟩]
    early_comp := [], mid_comp := [], late_comp := []
    item_priority_components := [], bis_items := [], links := [], notes := [] }

/-- A minimal inventory used by the C1 witness. -/
def invW : Inventory :=
  { units := [], items_components := [], items_completed := []
    augments := [], stage := "3-2" }

/-- Witness for C1 at a concrete input. -/
theorem C1_score_bounds_and_core_monotonicity_witness :
    (0 ≤ ((score_build buildW invW none none).get (by decide)).total ∧
      ((score_build buildW invW none none).get (by decide)).total ≤ 1) ∧
    (((score_build buildW invW none none).get (by decide)).champions ≤
      ((score_build buildW
        { invW with units := dset invW.units "A" 2 } none none).get
          (by decide)).champions) :=
  ⟨(C1_score_bounds_and_core_monotonicity buildW invW none none
      ((score_build buildW invW none none).get (by decide))
      (Option.some_get (by decide)).symm).1,
   (C1_score_bounds_and_core_monotonicity buildW invW none none
      ((score_build buildW invW none none).get (by decide))
      (Option.some_get (by decide)).symm).2 ⟨"A", 2, false⟩ (by decide)
      (by decide) (by decide)
      ((score_build buildW
        { invW with units := dset invW.units "A" 2 } none none).get
          (by decide))
      (Option.some_get (by decide)).symm⟩

/-! ## Crafting lemmas (for C5) -/

theorem mem_ddel {m : List (String × Int)} {k : String} {p : String × Int}
    (h : p ∈ ddel m k) : p ∈ m := List.mem_of_mem_filter h

theorem keys_ddel_not_mem {m : List (String × Int)} {k : String} :
    k ∉ (ddel m k).map Prod.fst := by
  intro hc
  rcases List.mem_map.mp hc with ⟨p, hp, he⟩
  have := List.of_mem_filter hp
  simp only [decide_eq_true_eq] at this
  exact this (he ▸ rfl)

theorem dget_ddel_self {m : List (String × Int)} {k : String} {d : Int} :
    dget (ddel m k) k d = d :=
  dget_of_not_mem_keys keys_ddel_not_mem

theorem dget_ddel_ne {m : List (String × Int)} {k k' : String} {d : Int}
    (h : k' ≠ k) : dget (ddel m k) k' d = dget m k' d := by
  induction m with
  | nil => rfl
  | cons p rest ih =>
    by_cases hp : p.1 = k
    · have hstep : ddel (p :: rest) k = ddel rest k := by
        simp [ddel, List.filter_cons, hp]
      rw [hstep, dget_cons, if_neg (fun e : p.1 = k' => h (e.symm.trans hp))]
      exact ih
    · have hstep : ddel (p :: rest) k = p :: ddel rest k := by
        simp [ddel, List.filter_cons, hp]
      rw [hstep, dget_cons, dget_cons]
      by_cases hpk' : p.1 = k'
      · rw [if_pos hpk', if_pos hpk']
      · rw [if_neg hpk', if_neg hpk']
        exact ih

theorem dset_not_mem_keys_eq_append {m : List (String × Int)} {k : String}
    {v : Int} (h : k ∉ m.map Prod.fst) : dset m k v = m ++ [(k, v)] := by
  induction m with
  | nil => rfl
  | cons p rest ih =>
    simp only [List.map_cons, List.mem_cons, not_or] at h
    have hp : ¬ (p.1 = k) := fun e => h.1 e.symm
    simp only [dset, hp, if_false, List.cons_append]
    rw [ih h.2]

theorem nodup_keys_dset {m : List (String × Int)} {k : String} {v : Int}
    (h : (m.map Prod.fst).Nodup) : ((dset m k v).map Prod.fst).Nodup := by
  by_cases hk : k ∈ m.map Prod.fst
  · rw [keys_dset_of_mem hk]
    exact h
  · rw [dset_not_mem_keys_eq_append hk, List.map_append]
    simp only [List.map_cons, List.map_nil]
    rw [List.nodup_append]
    refine ⟨h, by simp, ?_⟩
    intro a ha hb
    simp only [List.mem_singleton] at hb
    exact hk (hb ▸ ha)

theorem counterOf_keys_nodup (recipe : List String) :
    ((counterOf recipe).map Prod.fst).Nodup := by
  unfold counterOf
  have hgen : ∀ (cs : List String) (acc : List (String × Int)),
      (acc.map Prod.fst).Nodup →
      ((cs.foldl (fun a c => dset a c (dget a c 0 + 1)) acc).map
        Prod.fst).Nodup := by
    intro cs
    induction cs with
    | nil => exact fun acc h => h
    | cons c rest ih =>
      intro acc hacc
      simp only [List.foldl_cons]
      exact ih _ (nodup_keys_dset hacc)
  exact hgen recipe [] (by simp)

theorem consume_step_pos {st : List (String × Int)} {k : String} {q : Int}
    (h : ∀ p ∈ st, 0 < p.2) :
    ∀ p ∈ (if dget (dset st k (dget st k 0 - q)) k 0 ≤ 0 then
        ddel (dset st k (dget st k 0 - q)) k
      else dset st k (dget st k 0 - q)), 0 < p.2 := by
  intro p hp
  by_cases hc : dget (dset st k (dget st k 0 - q)) k 0 ≤ 0
  · rw [if_pos hc] at hp
    have hpk : ¬ (p.1 = k) := by
      have := List.of_mem_filter hp
      simpa using this
    rcases mem_dset (mem_ddel hp) with hm | he
    · exact h p hm
    · exact absurd (congrArg Prod.fst he) hpk
  · rw [if_neg hc] at hp
    rcases mem_dset hp with hm | he
    · exact h p hm
    · rw [dget_dset_self] at hc
      rw [he]
      omega

theorem consumeStock_pos {need : List (String × Int)} :
    ∀ {st : List (String × Int)}, (∀ p ∈ st, 0 < p.2) →
      ∀ p ∈ consumeStock st need, 0 < p.2 := by
  induction need with
  | nil => intro st h p hp; exact h p hp
  | cons n rest ih =>
    intro st h p hp
    unfold consumeStock at hp
    simp only [List.foldl_cons] at hp
    exact ih (consume_step_pos h) p hp

/-- Spec-side consumption: subtract each required quantity from the owned
multiset. -/
def specConsume (avail : String → Int) (need : List (String × Int)) :
    String → Int :=
  need.foldl (fun a p => Function.update a p.1 (a p.1 - p.2)) avail

theorem dgetF_consume_step {st : List (String × Int)} {k : String} {q : Int}
    (hfeas : q ≤ dget st k 0) :
    dgetF (if dget (dset st k (dget st k 0 - q)) k 0 ≤ 0 then
        ddel (dset st k (dget st k 0 - q)) k
      else dset st k (dget st k 0 - q)) =
      Function.update (dgetF st) k (dget st k 0 - q) := by
  by_cases hc : dget (dset st k (dget st k 0 - q)) k 0 ≤ 0
  · rw [if_pos hc]
    rw [dget_dset_self] at hc
    have hz : dget st k 0 - q = 0 := by omega
    funext k'
    by_cases hk' : k' = k
    · subst hk'
      simp only [dgetF, dget_ddel_self, Function.update_same, hz]
    · simp only [dgetF, dget_ddel_ne hk', dget_dset_ne hk',
        Function.update_noteq hk']
  · rw [if_neg hc]
    exact dgetF_dset

theorem dgetF_consumeStock :
    ∀ (need : List (String × Int)) (st : List (String × Int)),
      (need.map Prod.fst).Nodup →
      (∀ p ∈ need, p.2 ≤ dget st p.1 0) →
      dgetF (consumeStock st need) = specConsume (dgetF st) need := by
  intro need
  induction need with
  | nil => intro st _ _; rfl
  | cons n rest ih =>
    intro st hnd hfeas
    simp only [List.map_cons, List.nodup_cons] at hnd
    have hstep : consumeStock st (n :: rest) =
        consumeStock (if dget (dset st n.1 (dget st n.1 0 - n.2)) n.1 0 ≤ 0 then
            ddel (dset st n.1 (dget st n.1 0 - n.2)) n.1
          else dset st n.1 (dget st n.1 0 - n.2)) rest := rfl
    have hspec : specConsume (dgetF st) (n :: rest) =
        specConsume (Function.update (dgetF st) n.1 (dgetF st n.1 - n.2))
          rest := rfl
    rw [hstep, hspec]
    have hfn : n.2 ≤ dget st n.1 0 := hfeas n (List.mem_cons_self _ _)
    have hup := @dgetF_consume_step st n.1 n.2 hfn
    have hrest : ∀ p ∈ rest, p.2 ≤ dget (if dget (dset st n.1
        (dget st n.1 0 - n.2)) n.1 0 ≤ 0 then
          ddel (dset st n.1 (dget st n.1 0 - n.2)) n.1
        else dset st n.1 (dget st n.1 0 - n.2)) p.1 0 := by
      intro p hp
      have hne : p.1 ≠ n.1 := by
        intro he
        exact hnd.1 (List.mem_map.mpr ⟨p, hp, he⟩)
      have : dgetF (if dget (dset st n.1 (dget st n.1 0 - n.2)) n.1 0 ≤ 0 then
          ddel (dset st n.1 (dget st n.1 0 - n.2)) n.1
        else dset st n.1 (dget st n.1 0 - n.2)) p.1 = dget st p.1 0 := by
        rw [hup, Function.update_noteq hne]
        rfl
      rw [show dget (if dget (dset st n.1 (dget st n.1 0 - n.2)) n.1 0 ≤ 0 then
          ddel (dset st n.1 (dget st n.1 0 - n.2)) n.1
        else dset st n.1 (dget st n.1 0 - n.2)) p.1 0 = dgetF (if dget (dset st n.1
          (dget st n.1 0 - n.2)) n.1 0 ≤ 0 then
            ddel (dset st n.1 (dget st n.1 0 - n.2)) n.1
          else dset st n.1 (dget st n.1 0 - n.2)) p.1 from rfl, this]
      exact hfeas p (List.mem_cons_of_mem _ hp)
    rw [ih _ hnd.2 hrest, hup]
    rfl

/-- Spec-side restatement of the per-item crafting policy (the claim as
amended): an item with no recipe in the map, or with an empty recipe
(falsy in Python, treated like an unknown recipe), is skipped; an item with
a known non-empty recipe is crafted exactly when every aggregated component
quantity is currently available, in which case those quantities are
subtracted from the owned multiset; items are attempted strictly in order
and an earlier decision is never revisited. -/
def specCraftItems (recipes : String → Option (List String))
    (avail : String → Int) : List String → List String × (String → Int)
  | [] => ([], avail)
  | item :: rest =>
    match recipes item with
    | none => specCraftItems recipes avail rest
    | some recipe =>
      if recipe = [] then specCraftItems recipes avail rest
      else if (counterOf recipe).all (fun p => avail p.1 ≥ p.2) then
        ((item :: (specCraftItems recipes
            (specConsume avail (counterOf recipe)) rest).1),
         (specCraftItems recipes
            (specConsume avail (counterOf recipe)) rest).2)
      else specCraftItems recipes avail rest

/-- Spec-side crafting over the carries in mapping order. -/
def specCraftCarries (recipes : String → Option (List String))
    (avail : String → Int) :
    List (String × List String) → List String × (String → Int)
  | [] => ([], avail)
  | (_, desired) :: rest =>
    ((specCraftItems recipes avail desired).1 ++
      (specCraftCarries recipes
        (specCraftItems recipes avail desired).2 rest).1,
     (specCraftCarries recipes
        (specCraftItems recipes avail desired).2 rest).2)

theorem craftItemsGo_cons_none {recipes : List (String × List String)}
    {limit : Option Nat} {count : Nat} {st : List (String × Int)}
    {item : String} {rest : List String}
    (hr : dfind recipes item = none) :
    craftItemsGo recipes limit count st (item :: rest) =
      craftItemsGo recipes limit count st rest := by
  conv_lhs => rw [craftItemsGo]
  rw [hr]

theorem craftItemsGo_cons_some {recipes : List (String × List String)}
    {limit : Option Nat} {count : Nat} {st : List (String × Int)}
    {item : String} {rest : List String} {recipe : List String}
    (hr : dfind recipes item = some recipe) :
    craftItemsGo recipes limit count st (item :: rest) =
      (if recipe = [] then craftItemsGo recipes limit count st rest
       else if (counterOf recipe).all (fun p => dget st p.1 0 ≥ p.2) then
         match limit with
         | some lim =>
           if count + 1 ≥ lim then
             ([item], consumeStock st (counterOf recipe))
           else
             (item :: (craftItemsGo recipes limit (count + 1)
                 (consumeStock st (counterOf recipe)) rest).1,
              (craftItemsGo recipes limit (count + 1)
                 (consumeStock st (counterOf recipe)) rest).2)
         | none =>
           (item :: (craftItemsGo recipes limit (count + 1)
               (consumeStock st (counterOf recipe)) rest).1,
            (craftItemsGo recipes limit (count + 1)
               (consumeStock st (counterOf recipe)) rest).2)
       else craftItemsGo recipes limit count st rest) := by
  conv_lhs => rw [craftItemsGo]
  rw [hr]

theorem specCraftItems_cons_none {recipes : String → Option (List String)}
    {avail : String → Int} {item : String} {rest : List String}
    (hr : recipes item = none) :
    specCraftItems recipes avail (item :: rest) =
      specCraftItems recipes avail rest := by
  conv_lhs => rw [specCraftItems]
  rw [hr]

theorem specCraftItems_cons_some {recipes : String → Option (List String)}
    {avail : String → Int} {item : String} {rest : List String}
    {recipe : List String} (hr : recipes item = some recipe) :
    specCraftItems recipes avail (item :: rest) =
      (if recipe = [] then specCraftItems recipes avail rest
       else if (counterOf recipe).all (fun p => avail p.1 ≥ p.2) then
         (item :: (specCraftItems recipes
             (specConsume avail (counterOf recipe)) rest).1,
          (specCraftItems recipes
             (specConsume avail (counterOf recipe)) rest).2)
       else specCraftItems recipes avail rest) := by
  conv_lhs => rw [specCraftItems]
  rw [hr]

theorem craftItemsGo_eq_spec (recipes : List (String × List String)) :
    ∀ (items : List String) (st : List (String × Int)) (count : Nat),
      (craftItemsGo recipes none count st items).1 =
        (specCraftItems (fun i => dfind recipes i) (dgetF st) items).1 ∧
      dgetF (craftItemsGo recipes none count st items).2 =
        (specCraftItems (fun i => dfind recipes i) (dgetF st) items).2 := by
  intro items
  induction items with
  | nil => intro st count; exact ⟨rfl, rfl⟩
  | cons item rest ih =>
    intro st count
    cases hr : dfind recipes item with
    | none =>
      rw [craftItemsGo_cons_none hr, specCraftItems_cons_none hr]
      exact ih st count
    | some recipe =>
      rw [craftItemsGo_cons_some hr, specCraftItems_cons_some hr]
      by_cases hre : recipe = []
      · rw [if_pos hre, if_pos hre]
        exact ih st count
      · rw [if_neg hre, if_neg hre]
        by_cases hfeas : ((counterOf recipe).all
            (fun p => dget st p.1 0 ≥ p.2)) = true
        · have hfeasS : ((counterOf recipe).all
              (fun p => dgetF st p.1 ≥ p.2)) = true := hfeas
          rw [if_pos hfeas, if_pos hfeasS]
          have hfeasm : ∀ p ∈ counterOf recipe, p.2 ≤ dget st p.1 0 := by
            intro p hp
            have := List.all_eq_true.mp hfeas p hp
            simpa using this
          have hcons := dgetF_consumeStock (counterOf recipe) st
            (counterOf_keys_nodup recipe) hfeasm
          obtain ⟨ha, hb⟩ := ih (consumeStock st (counterOf recipe)) (count + 1)
          rw [hcons] at ha hb
          exact ⟨congrArg (List.cons item) ha, hb⟩
        · have hfeasS : ¬ ((counterOf recipe).all
              (fun p => dgetF st p.1 ≥ p.2)) = true := hfeas
          rw [if_neg hfeas, if_neg hfeasS]
          exact ih st count

theorem craftCarriesGo_eq_spec (recipes : List (String × List String)) :
    ∀ (bis : List (String × List String)) (st : List (String × Int)),
      (craftCarriesGo recipes none st bis).1 =
        (specCraftCarries (fun i => dfind recipes i) (dgetF st) bis).1 ∧
      dgetF (craftCarriesGo recipes none st bis).2.2 =
        (specCraftCarries (fun i => dfind recipes i) (dgetF st) bis).2 := by
  intro bis
  induction bis with
  | nil => intro st; exact ⟨rfl, rfl⟩
  | cons entry rest ih =>
    intro st
    obtain ⟨carry, desired⟩ := entry
    obtain ⟨hi1, hi2⟩ := craftItemsGo_eq_spec recipes desired st 0
    obtain ⟨hc1, hc2⟩ := ih (craftItemsGo recipes none 0 st desired).2
    rw [hi2] at hc1 hc2
    have h1 : craftCarriesGo recipes none st ((carry, desired) :: rest) =
        ((craftItemsGo recipes none 0 st desired).1 ++
          (craftCarriesGo recipes none
            (craftItemsGo recipes none 0 st desired).2 rest).1,
         (carry, (craftItemsGo recipes none 0 st desired).1) ::
          (craftCarriesGo recipes none
            (craftItemsGo recipes none 0 st desired).2 rest).2.1,
         (craftCarriesGo recipes none
            (craftItemsGo recipes none 0 st desired).2 rest).2.2) := rfl
    have h2 : specCraftCarries (fun i => dfind recipes i) (dgetF st)
        ((carry, desired) :: rest) =
        ((specCraftItems (fun i => dfind recipes i) (dgetF st) desired).1 ++
          (specCraftCarries (fun i => dfind recipes i)
            (specCraftItems (fun i => dfind recipes i) (dgetF st) desired).2
            rest).1,
         (specCraftCarries (fun i => dfind recipes i)
            (specCraftItems (fun i => dfind recipes i) (dgetF st) desired).2
            rest).2) := rfl
    rw [h1, h2]
    constructor
    · simp only []
      rw [hi1, hc1]
    · simp only []
      rw [hc2]

theorem craftItemsGo_pos (recipes : List (String × List String))
    (limit : Option Nat) :
    ∀ (items : List String) (st : List (String × Int)) (count : Nat),
      (∀ p ∈ st, 0 < p.2) →
      ∀ p ∈ (craftItemsGo recipes limit count st items).2, 0 < p.2 := by
  intro items
  induction items with
  | nil => intro st count h p hp; exact h p hp
  | cons item rest ih =>
    intro st count h p hp
    cases hr : dfind recipes item with
    | none =>
      rw [craftItemsGo_cons_none hr] at hp
      exact ih st count h p hp
    | some recipe =>
      rw [craftItemsGo_cons_some hr] at hp
      by_cases hre : recipe = []
      · rw [if_pos hre] at hp
        exact ih st count h p hp
      · rw [if_neg hre] at hp
        by_cases hfeas : ((counterOf recipe).all
            (fun q => dget st q.1 0 ≥ q.2)) = true
        · rw [if_pos hfeas] at hp
          cases limit with
          | some lim =>
            have hp' : p ∈ (if count + 1 ≥ lim then
                ([item], consumeStock st (counterOf recipe))
              else
                (item :: (craftItemsGo recipes (some lim) (count + 1)
                    (consumeStock st (counterOf recipe)) rest).1,
                 (craftItemsGo recipes (some lim) (count + 1)
                    (consumeStock st (counterOf recipe)) rest).2)).2 := hp
            by_cases hlim : count + 1 ≥ lim
            · rw [if_pos hlim] at hp'
              exact consumeStock_pos h p hp'
            · rw [if_neg hlim] at hp'
              exact ih _ _ (consumeStock_pos h) p hp'
          | none =>
            exact ih _ _ (consumeStock_pos h) p hp
        · rw [if_neg hfeas] at hp
          exact ih st count h p hp

theorem craftCarriesGo_pos (recipes : List (String × List String))
    (limit : Option Nat) :
    ∀ (bis : List (String × List String)) (st : List (String × Int)),
      (∀ p ∈ st, 0 < p.2) →
      ∀ p ∈ (craftCarriesGo recipes limit st bis).2.2, 0 < p.2 := by
  intro bis
  induction bis with
  | nil => intro st h p hp; exact h p hp
  | cons entry rest ih =>
    intro st h p hp
    obtain ⟨carry, desired⟩ := entry
    exact ih _ (craftItemsGo_pos recipes limit desired st 0 h) p hp

/-- Counterexample to Claim C5 as stated: an item whose recipe is present in
the recipe map but empty is skipped (`if not recipe` is true for an empty
list in Python) even though every required component quantity — vacuously —
is available, so it is not "crafted exactly when every required component
quantity is currently available". -/
theorem C5_craftable_counterexample :
    (craftable_bis_items [("X", ["I"])] [("I", [])] [] none).crafted = [] ∧
    dfind [("I", ([] : List String))] "I" = some [] ∧
    (∀ p ∈ counterOf ([] : List String),
      dget ([] : List (String × Int)) p.1 0 ≥ p.2) :=
  ⟨by decide, by decide, by intro p hp; simp [counterOf] at hp⟩

/-- Claim C5 (amended): with no per-carry limit, `craftable_bis_items`
iterates carries in mapping order then desired items in declared order; an
item with a known **non-empty** recipe is crafted exactly when every
aggregated component quantity is currently available, in which case those
quantities are deducted from the working stock; an item whose recipe is
absent from the map — or present but empty, which Python truthiness treats
the same as absent — is skipped without error; no item is partially crafted
and no earlier craft is revisited. Formally the crafted list and the final
stock coincide with the order-preserving specification `specCraftCarries` /
`specCraftItems`, and every remaining count stays positive (no partial
deduction is ever visible). -/
theorem C5_craft_all_or_nothing_amended :
    ∀ (bis recipes : List (String × List String))
      (components : List (String × Int)),
      (components.map Prod.fst).Nodup →
      ((craftable_bis_items bis recipes components none).crafted =
        (specCraftCarries (fun i => dfind recipes i)
          (fun c => if dget components c 0 > 0 then dget components c 0 else 0)
          bis).1) ∧
      (dgetF (craftable_bis_items bis recipes components
          none).remaining_components =
        (specCraftCarries (fun i => dfind recipes i)
          (fun c => if dget components c 0 > 0 then dget components c 0 else 0)
          bis).2) ∧
      (∀ p ∈ (craftable_bis_items bis recipes components
          none).remaining_components, 0 < p.2) := by
  intro bis recipes components hnd
  have hinit : dgetF (components.filter (fun p => p.2 > 0)) =
      (fun c => if dget components c 0 > 0 then dget components c 0 else 0) := by
    funext c
    exact dget_filter_pos hnd
  have hpos0 : ∀ p ∈ components.filter (fun p => p.2 > 0), (0 : Int) < p.2 := by
    intro p hp
    have := List.of_mem_filter hp
    simpa using this
  obtain ⟨h1, h2⟩ := craftCarriesGo_eq_spec recipes bis
    (components.filter (fun p => p.2 > 0))
  rw [hinit] at h1 h2
  exact ⟨h1, h2, craftCarriesGo_pos recipes none bis _ hpos0⟩

/-- Witness for C5 (amended) at a concrete input. -/
theorem C5_craft_all_or_nothing_amended_witness :
    (craftable_bis_items [("Xayah", ["Rageblade"])]
        [("Rageblade", ["Recurve Bow", "Needlessly Large Rod"])]
        [("Recurve Bow", 1), ("Needlessly Large Rod", 1)] none).crafted =
      (specCraftCarries
        (fun i => dfind [("Rageblade", ["Recurve Bow", "Needlessly Large Rod"])] i)
        (fun c =>
          if dget [("Recurve Bow", 1), ("Needlessly Large Rod", 1)] c 0 > 0
          then dget [("Recurve Bow", 1), ("Needlessly Large Rod", 1)] c 0
          else 0)
        [("Xayah", ["Rageblade"])]).1 :=
  (C5_craft_all_or_nothing_amended [("Xayah", ["Rageblade"])]
    [("Rageblade", ["Recurve Bow", "Needlessly Large Rod"])]
    [("Recurve Bow", 1), ("Needlessly Large Rod", 1)] (by decide)).1

/-! ## Loader lemmas (for C6) -/

/-- Specification-side restatement of the duplicate-id policy (from the
spec's words): walking the files in order, a build whose id was not seen
before is kept and its id is recorded with its path; a later file with an
already-seen id is skipped and a duplicate record `(id, its path, the first
occurrence's path)` is emitted. -/
def specLoad {α : Type} (idOf : α → String) (seen : List (String × String)) :
    List (String × α) →
      List α × List (String × String) × List (String × String × String)
  | [] => ([], [], [])
  | (path, b) :: rest =>
    match seen.find? (fun q => q.1 = idOf b) with
    | some q =>
      ((specLoad idOf seen rest).1,
       (specLoad idOf seen rest).2.1,
       (idOf b, path, q.2) :: (specLoad idOf seen rest).2.2)
    | none =>
      (b :: (specLoad idOf (seen ++ [(idOf b, path)]) rest).1,
       (idOf b, path) :: (specLoad idOf (seen ++ [(idOf b, path)]) rest).2.1,
       (specLoad idOf (seen ++ [(idOf b, path)]) rest).2.2)

theorem specLoad_cons_some {α : Type} {idOf : α → String}
    {seen : List (String × String)} {path : String} {b : α}
    {rest : List (String × α)} {q : String × String}
    (hf : seen.find? (fun p => p.1 = idOf b) = some q) :
    specLoad idOf seen ((path, b) :: rest) =
      ((specLoad idOf seen rest).1,
       (specLoad idOf seen rest).2.1,
       (idOf b, path, q.2) :: (specLoad idOf seen rest).2.2) := by
  conv_lhs => rw [specLoad]
  rw [hf]

theorem specLoad_cons_none {α : Type} {idOf : α → String}
    {seen : List (String × String)} {path : String} {b : α}
    {rest : List (String × α)}
    (hf : seen.find? (fun p => p.1 = idOf b) = none) :
    specLoad idOf seen ((path, b) :: rest) =
      (b :: (specLoad idOf (seen ++ [(idOf b, path)]) rest).1,
       (idOf b, path) :: (specLoad idOf (seen ++ [(idOf b, path)]) rest).2.1,
       (specLoad idOf (seen ++ [(idOf b, path)]) rest).2.2) := by
  conv_lhs => rw [specLoad]
  rw [hf]

theorem foldl_loadStep_eq {α : Type} (idOf : α → String) (strict : Bool) :
    ∀ (files : List (String × α)) (st : LoadState α),
      files.foldl (loadStep idOf strict) st =
        ⟨st.builds ++ (specLoad idOf st.seen files).1,
         st.seen ++ (specLoad idOf st.seen files).2.1,
         st.duplicates ++
           (if strict then (specLoad idOf st.seen files).2.2 else [])⟩ := by
  intro files
  induction files with
  | nil =>
    intro st
    show st = _
    cases strict <;> simp [specLoad]
  | cons f rest ih =>
    intro st
    obtain ⟨path, b⟩ := f
    rw [List.foldl_cons]
    cases hf : st.seen.find? (fun q => q.1 = idOf b) with
    | some q =>
      have hstep : loadStep idOf strict st (path, b) =
          (if strict then
            { st with duplicates := st.duplicates ++ [(idOf b, path, q.2)] }
          else st) := by
        unfold loadStep
        rw [hf]
      rw [hstep, specLoad_cons_some hf]
      cases strict with
      | true =>
        rw [if_pos rfl]
        rw [ih]
        simp
      | false =>
        rw [if_neg (by simp)]
        rw [ih]
        simp
    | none =>
      have hstep : loadStep idOf strict st (path, b) =
          { builds := st.builds ++ [b]
            seen := st.seen ++ [(idOf b, path)]
            duplicates := st.duplicates } := by
        unfold loadStep
        rw [hf]
      rw [hstep, specLoad_cons_none hf, ih]
      cases strict <;> simp

theorem specLoad_dup_paths {α : Type} (idOf : α → String)
    (all : List (String × α)) :
    ∀ (files : List (String × α)) (seen : List (String × String)),
      (∀ f ∈ files, f ∈ all) →
      (∀ q ∈ seen, ∃ b, (q.2, b) ∈ all ∧ idOf b = q.1) →
      ∀ r ∈ (specLoad idOf seen files).2.2,
        (∃ b, (r.2.1, b) ∈ all ∧ idOf b = r.1) ∧
        (∃ b, (r.2.2, b) ∈ all ∧ idOf b = r.1) := by
  intro files
  induction files with
  | nil =>
    intro seen _ _ r hr
    simp [specLoad] at hr
  | cons f rest ih =>
    intro seen hfiles hseen r hr
    obtain ⟨path, b⟩ := f
    cases hf : seen.find? (fun q => q.1 = idOf b) with
    | some q =>
      rw [specLoad_cons_some hf] at hr
      rcases List.mem_cons.mp hr with rfl | hr'
      · constructor
        · exact ⟨b, hfiles _ (List.mem_cons_self _ _), rfl⟩
        · have hqmem : q ∈ seen := List.mem_of_find?_eq_some hf
          have hqid : q.1 = idOf b := by
            have := List.find?_some hf
            simpa using this
          rcases hseen q hqmem with ⟨b', hb', hid⟩
          exact ⟨b', hb', by rw [hid, hqid]⟩
      · exact ih seen (fun g hg => hfiles g (List.mem_cons_of_mem _ hg))
          hseen r hr'
    | none =>
      rw [specLoad_cons_none hf] at hr
      refine ih (seen ++ [(idOf b, path)])
        (fun g hg => hfiles g (List.mem_cons_of_mem _ hg)) ?_ r hr
      intro q hq
      rcases List.mem_append.mp hq with hq' | hq'
      · exact hseen q hq'
      · have : q = (idOf b, path) := List.mem_singleton.mp hq'
        rw [this]
        exact ⟨b, hfiles _ (List.mem_cons_self _ _), rfl⟩

theorem specLoad_dups_nil_iff {α : Type} (idOf : α → String) :
    ∀ (files : List (String × α)) (seen : List (String × String)),
      ((specLoad idOf seen files).2.2 = [] ↔
        ((∀ f ∈ files, idOf f.2 ∉ seen.map Prod.fst) ∧
         (files.map (fun f => idOf f.2)).Nodup)) := by
  intro files
  induction files with
  | nil =>
    intro seen
    simp [specLoad]
  | cons f rest ih =>
    intro seen
    obtain ⟨path, b⟩ := f
    cases hf : seen.find? (fun q => q.1 = idOf b) with
    | some q =>
      rw [specLoad_cons_some hf]
      have hmem : idOf b ∈ seen.map Prod.fst := by
        have hqmem : q ∈ seen := List.mem_of_find?_eq_some hf
        have hqid : q.1 = idOf b := by
          have := List.find?_some hf
          simpa using this
        exact List.mem_map.mpr ⟨q, hqmem, hqid⟩
      constructor
      · intro hc
        exact absurd hc (by simp)
      · rintro ⟨hall, _⟩
        exact absurd hmem (hall (path, b) (List.mem_cons_self _ _))
    | none =>
      rw [specLoad_cons_none hf]
      have hnot : idOf b ∉ seen.map Prod.fst := by
        intro hc
        rcases List.mem_map.mp hc with ⟨q, hq, hid⟩
        have := List.find?_eq_none.mp hf q hq
        simp [hid] at this
      rw [ih]
      constructor
      · rintro ⟨hall, hnd⟩
        refine ⟨?_, ?_⟩
        · intro g hg
          rcases List.mem_cons.mp hg with rfl | hg'
          · exact hnot
          · have := hall g hg'
            intro hc
            apply this
            rw [List.map_append]
            exact List.mem_append.mpr (Or.inl hc)
        · rw [List.map_cons, List.nodup_cons]
          constructor
          · intro hc
            rcases List.mem_map.mp hc with ⟨g, hg, hid⟩
            have := hall g hg
            apply this
            rw [List.map_append]
            apply List.mem_append.mpr
            right
            simp [hid]
          · exact hnd
      · rintro ⟨hall, hnd⟩
        rw [List.map_cons, List.nodup_cons] at hnd
        refine ⟨?_, hnd.2⟩
        intro g hg hc
        rw [List.map_append] at hc
        rcases List.mem_append.mp hc with hc' | hc'
        · exact hall g (List.mem_cons_of_mem _ hg) hc'
        · have hid : idOf g.2 = idOf b := by simpa using hc'
          apply hnd.1
          exact List.mem_map.mpr ⟨g, hg, hid⟩

/-- Claim C6: with `strict_ids = true`, loading a directory raises an
invalid-build error exactly when two files yield the same build id, and the
error payload carries one record per duplicate occurrence, each holding the
duplicate id together with the duplicate occurrence's path and the first
occurrence's path (both genuine paths of files carrying that id); with
`strict_ids = false` no error is raised, the first-loaded occurrence of each
id is kept and later duplicates are skipped. -/
theorem C6_duplicate_build_ids :
    ∀ {α : Type} (idOf : α → String) (files : List (String × α)),
      (load_builds_from_dir idOf files false =
        .ok (specLoad idOf [] files).1) ∧
      (load_builds_from_dir idOf files true =
        (if (specLoad idOf [] files).2.2 = []
         then .ok (specLoad idOf [] files).1
         else .error (specLoad idOf [] files).2.2)) ∧
      ((specLoad idOf [] files).2.2 = [] ↔
        (files.map (fun f => idOf f.2)).Nodup) ∧
      (∀ r ∈ (specLoad idOf [] files).2.2,
        (∃ b, (r.2.1, b) ∈ files ∧ idOf b = r.1) ∧
        (∃ b, (r.2.2, b) ∈ files ∧ idOf b = r.1)) := by
  intro α idOf files
  have hfold := foldl_loadStep_eq idOf
  refine ⟨?_, ?_, ?_, ?_⟩
  · unfold load_builds_from_dir
    rw [hfold false files ⟨[], [], []⟩]
    simp
  · unfold load_builds_from_dir
    rw [hfold true files ⟨[], [], []⟩]
    by_cases hd : (specLoad idOf [] files).2.2 = []
    · rw [if_pos hd]
      simp [hd]
    · rw [if_neg hd]
      simp [hd]
  · have := specLoad_dups_nil_iff idOf files []
    rw [this]
    simp
  · intro r hr
    exact specLoad_dup_paths idOf files files [] (fun f hf => hf)
      (by intro q hq; simp at hq) r hr

/-- Witness for C6 at a concrete input. -/
theorem C6_duplicate_build_ids_witness :
    ((specLoad (fun s : String => s) []
      [("a.yaml", "x"), ("b.yaml", "x")]).2.2 = [] ↔
      (([("a.yaml", "x"), ("b.yaml", "x")].map
        (fun f : String × String => f.2)).Nodup)) :=
  (C6_duplicate_build_ids (fun s : String => s)
    [("a.yaml", "x"), ("b.yaml", "x")]).2.2.1

/-- Witness for C7 at a concrete input. -/
theorem C7_champion_heat_normalization_witness :
    compute_champion_heat [] = [] :=
  C7_champion_heat_normalization.2.1 [] rfl

/-- Witness for C9 (amended) at a concrete input. -/
theorem C9_normalize_idempotent_amended_witness :
    normalize_name (normalize_name " Gnar* ") = normalize_name " Gnar* " :=
  C9_normalize_idempotent_amended.1 " Gnar* " (by decide)

/-- Witness for C4 at a concrete input. -/
theorem C4_stage_parsing_witness :
    stage_bucket "5-2" = some
      (if (5 : Int) < 3 ∨ ((5 : Int) = 3 ∧ (2 : Int) ≤ 1) then StageBucket.early
       else if (5 : Int) < 4 ∨ ((5 : Int) = 4 ∧ (2 : Int) ≤ 1) then StageBucket.mid
       else StageBucket.late) :=
  (C4_stage_parsing.2.2.2.2.2.2.2) "5-2" 5 2 (by decide)

/-! ## Model-validation lemmas (for C8) -/

/-- `mapO f l = some l2` relates `l` and `l2` elementwise. -/
theorem mapO_some {α β : Type} (f : α → Option β) :
    ∀ (l : List α) (l2 : List β), mapO f l = some l2 →
      List.Forall₂ (fun a c => f a = some c) l l2 := by
  intro l
  induction l with
  | nil =>
    intro l2 h
    have h2 : (some [] : Option (List β)) = some l2 := h
    cases h2
    exact .nil
  | cons x xs ih =>
    intro l2 h
    unfold mapO at h
    split at h
    · rename_i y ys hfx hrest
      cases h
      exact .cons hfx (ih _ hrest)
    · exact Option.noConfusion h

/-- Right-to-left membership through `List.Forall₂`. -/
theorem forall2_mem_right {α β : Type} {r : α → β → Prop} :
    ∀ {l : List α} {l2 : List β}, List.Forall₂ r l l2 →
      ∀ c ∈ l2, ∃ a ∈ l, r a c := by
  intro l l2 h
  induction h with
  | nil =>
    intro c hc
    simp at hc
  | cons hr _ ih =>
    intro c hc
    rcases List.mem_cons.mp hc with hc | hc
    · subst hc
      exact ⟨_, List.mem_cons_self _ _, hr⟩
    · rcases ih c hc with ⟨a, ha, hra⟩
      exact ⟨a, List.mem_cons_of_mem _ ha, hra⟩

/-- Two maps agree when `List.Forall₂` carries the pointwise equation. -/
theorem forall2_map_eq {α β γ : Type} {r : α → β → Prop} {g : β → γ}
    {f2 : α → γ} (hrg : ∀ a c, r a c → g c = f2 a) :
    ∀ {l : List α} {l2 : List β}, List.Forall₂ r l l2 →
      l2.map g = l.map f2 := by
  intro l l2 h
  induction h with
  | nil => rfl
  | cons hr _ ih => simp [hrg _ _ hr, ih]

/-- A validated core unit carries the normalized raw name. -/
theorem vCoreUnit_some_name {cu : CoreUnitInput} {c : CoreUnit}
    (h : vCoreUnit cu = some c) : c.name = normalize_name cu.name := by
  unfold vCoreUnit at h
  split at h
  · cases h
    rfl
  · exact Option.noConfusion h

/-- Validated triggers carry the normalized raw `any`-lists. -/
theorem vTriggers_some_lists {t : NoteTriggersInput} {tr : NoteTriggers}
    (h : vTriggers t = some tr) :
    tr.missing_augments_any = t.missing_augments_any.map normalize_name ∧
    tr.have_components_any = t.have_components_any.map normalize_name := by
  unfold vTriggers at h
  cases hsm : t.stage_min with
  | none =>
    rw [hsm] at h
    have h2 : some (⟨t.missing_augments_any.map normalize_name,
        t.have_components_any.map normalize_name, none,
        t.suggest_pivot_to⟩ : NoteTriggers) = some tr := h
    cases h2
    exact ⟨rfl, rfl⟩
  | some s =>
    rw [hsm] at h
    have h2 : (if (parse_stage s).isSome then
        some (⟨t.missing_augments_any.map normalize_name,
          t.have_components_any.map normalize_name, some s,
          t.suggest_pivot_to⟩ : NoteTriggers)
        else none) = some tr := h
    by_cases hps : (parse_stage s).isSome
    · rw [if_pos hps] at h2
      cases h2
      exact ⟨rfl, rfl⟩
    · rw [if_neg hps] at h2
      exact Option.noConfusion h2

/-- A validated note carries the normalized trigger lists of its raw note. -/
theorem vNote_some_triggers {n : NoteInput} {note : Note}
    (h : vNote n = some note) :
    note.triggers.missing_augments_any =
      n.triggers.missing_augments_any.map normalize_name ∧
    note.triggers.have_components_any =
      n.triggers.have_components_any.map normalize_name := by
  unfold vNote at h
  cases htr : vTriggers n.triggers with
  | none =>
    rw [htr] at h
    exact Option.noConfusion h
  | some tr =>
    rw [htr] at h
    have h2 : (if pyStrip n.text = "" then none
        else some (⟨n.severity, pyStrip n.text, tr⟩ : Note)) = some note := h
    by_cases htxt : pyStrip n.text = ""
    · rw [if_pos htxt] at h2
      exact Option.noConfusion h2
    · rw [if_neg htxt] at h2
      cases h2
      exact vTriggers_some_lists htr

/-- Membership in a `dsetL` update comes from the new pair or the old dict. -/
theorem dsetL_mem {k : String} {v : List String} {q : String × List String} :
    ∀ {acc : List (String × List String)}, q ∈ dsetL acc k v →
      q = (k, v) ∨ q ∈ acc := by
  intro acc
  induction acc with
  | nil =>
    intro h
    unfold dsetL at h
    rcases List.mem_singleton.mp h with h
    exact .inl h
  | cons p rest ih =>
    intro h
    unfold dsetL at h
    by_cases hp : p.1 = k
    · rw [if_pos hp] at h
      rcases List.mem_cons.mp h with h | h
      · exact .inl h
      · exact .inr (List.mem_cons_of_mem _ h)
    · rw [if_neg hp] at h
      rcases List.mem_cons.mp h with h | h
      · subst h
        exact .inr (List.mem_cons_self _ _)
      · rcases ih h with h | h
        · exact .inl h
        · exact .inr (List.mem_cons_of_mem _ h)

/-- Invariant of the `_v_bis` fold: every pair of the result is either the
normalization of a raw pair or was already in the accumulator. -/
theorem vBis_go_mem :
    ∀ (m : List (String × List String)) (acc : List (String × List String))
      (q : String × List String),
      q ∈ m.foldl (fun acc p => dsetL acc (normalize_name p.1)
        ((p.2.filter (fun i => i ≠ "" ∧ pyStrip i ≠ "")).map pyStrip)) acc →
      (∃ raw ∈ m, q.1 = normalize_name raw.1 ∧
        q.2 = (raw.2.filter (fun i => i ≠ "" ∧ pyStrip i ≠ "")).map pyStrip) ∨
      q ∈ acc := by
  intro m
  induction m with
  | nil =>
    intro acc q h
    exact .inr h
  | cons p rest ih =>
    intro acc q h
    simp only [List.foldl_cons] at h
    rcases ih _ q h with h2 | h2
    · rcases h2 with ⟨raw, hraw, hq⟩
      exact .inl ⟨raw, List.mem_cons_of_mem _ hraw, hq⟩
    · rcases dsetL_mem h2 with h3 | h3
      · refine .inl ⟨p, List.mem_cons_self _ _, ?_, ?_⟩
        · rw [h3]
        · rw [h3]
      · exact .inr h3

/-- Every pair of a validated `bis_items` mapping has a normalized carry key
and values that are exactly the stripped non-empty raw item names. -/
theorem vBis_mem {m : List (String × List String)} {q : String × List String}
    (h : q ∈ vBis m) :
    ∃ raw ∈ m, q.1 = normalize_name raw.1 ∧
      q.2 = (raw.2.filter (fun i => i ≠ "" ∧ pyStrip i ≠ "")).map pyStrip := by
  unfold vBis at h
  rcases vBis_go_mem m [] q h with h2 | h2
  · exact h2
  · simp at h2

/-- A successfully constructed `Build` carries exactly the validators
outputs in each normalized field. -/
theorem mkBuild_some_fields {input : BuildInput} {b : Build}
    (h : mkBuild input = some b) :
    b.early_comp = vNameList input.early_comp ∧
    b.mid_comp = vNameList input.mid_comp ∧
    b.late_comp = vNameList input.late_comp ∧
    b.item_priority_components = vNameList input.item_priority_components ∧
    b.bis_items = vBis input.bis_items ∧
    mapO vCoreUnit input.core_units = some b.core_units ∧
    mapO vNote input.notes = some b.notes := by
  unfold mkBuild at h
  split at h
  · exact Option.noConfusion h
  split at h
  · exact Option.noConfusion h
  split at h
  · exact Option.noConfusion h
  split at h
  · exact Option.noConfusion h
  split at h
  · rename_i cus links notes hcu hlk hnt
    cases h
    exact ⟨rfl, rfl, rfl, rfl, rfl, hcu, hnt⟩
  · exact Option.noConfusion h

/-- C8 counterexample input: a bis item value carrying a trailing star. -/
def cInputC8 : BuildInput :=
  { id := "b1"
    name := "Build One"
    tier := "S"
    tier_rank := 1
    patch := "15.4"
    core_units := []
    early_comp := []
    mid_comp := []
    late_comp := []
    item_priority_components := []
    bis_items := [("Xayah", ["Rageblade*"])]
    links := []
    notes := [] }

/-- Counterexample to claim C8 as stated: a completed-item name inside a
`bis_items` value list is NOT normalized — `_v_bis` only whitespace-strips
the values (`i.strip()`), so a trailing star survives validation, while
`_normalize_name` would have removed it. -/
theorem C8_normalization_counterexample :
    (mkBuild cInputC8).map Build.bis_items =
      some [("Xayah", ["Rageblade*"])] ∧
    normalize_name "Rageblade*" = "Rageblade" ∧
    "Rageblade*" ≠ "Rageblade" :=
  ⟨by decide, by decide, by decide⟩

/-- Claim C8 (amended): for every `Build` constructed from untrusted input,
name normalization (trim plus one trailing star) is applied to every
champion name in the comp lists, every component name in the item priority
list, every core-unit champion name, every augment and component name
inside note triggers, and every carry key of `bis_items`; the
completed-item names inside `bis_items` value lists are the exception:
they are only whitespace-stripped (empties dropped), not normalized. -/
theorem C8_normalization_amended :
    ∀ (input : BuildInput) (b : Build), mkBuild input = some b →
      b.early_comp = (input.early_comp.map normalize_name).filter
        (fun n => n ≠ "") ∧
      b.mid_comp = (input.mid_comp.map normalize_name).filter
        (fun n => n ≠ "") ∧
      b.late_comp = (input.late_comp.map normalize_name).filter
        (fun n => n ≠ "") ∧
      b.item_priority_components =
        (input.item_priority_components.map normalize_name).filter
          (fun n => n ≠ "") ∧
      b.core_units.map CoreUnit.name =
        input.core_units.map (fun cu => normalize_name cu.name) ∧
      b.notes.map (fun note => note.triggers.missing_augments_any) =
        input.notes.map
          (fun n => n.triggers.missing_augments_any.map normalize_name) ∧
      b.notes.map (fun note => note.triggers.have_components_any) =
        input.notes.map
          (fun n => n.triggers.have_components_any.map normalize_name) ∧
      ∀ p ∈ b.bis_items, ∃ raw ∈ input.bis_items,
        p.1 = normalize_name raw.1 ∧
        p.2 = (raw.2.filter (fun i => i ≠ "" ∧ pyStrip i ≠ "")).map pyStrip := by
  intro input b h
  obtain ⟨he, hm, hl, hip, hb, hcu, hnt⟩ := mkBuild_some_fields h
  refine ⟨?_, ?_, ?_, ?_, ?_, ?_, ?_, ?_⟩
  · rw [he]; rfl
  · rw [hm]; rfl
  · rw [hl]; rfl
  · rw [hip]; rfl
  · exact forall2_map_eq (fun a c hc => vCoreUnit_some_name hc)
      (mapO_some vCoreUnit input.core_units b.core_units hcu)
  · refine forall2_map_eq ?_ (mapO_some vNote input.notes b.notes hnt)
    exact fun a c hc => (vNote_some_triggers hc).1
  · refine forall2_map_eq ?_ (mapO_some vNote input.notes b.notes hnt)
    exact fun a c hc => (vNote_some_triggers hc).2
  · rw [hb]
    exact fun p hp => vBis_mem hp

/-- A raw build used by the C8 witness. -/
def inputW8 : BuildInput :=
  { id := "b1"
    name := "Build One"
    tier := "s"
    tier_rank := 1
    patch := "15.4"
    core_units := [⟨" Xayah* ", 2, true⟩]
    early_comp := [" Aatrox* "]
    mid_comp := ["Janna "]
    late_comp := [" Rakan"]
    item_priority_components := ["Recurve Bow*"]
    bis_items := [(" Xayah* ", [" Rageblade* ", ""])]
    links := []
    notes := [⟨Severity.info, " slam early ",
      ⟨[" Portable Forge* "], ["Recurve Bow "], none, none⟩⟩] }

/-- Witness for C8 (amended) at a concrete input. -/
theorem C8_normalization_amended_witness :
    ((mkBuild inputW8).get (by decide)).core_units.map CoreUnit.name =
      inputW8.core_units.map (fun cu => normalize_name cu.name) :=
  (C8_normalization_amended inputW8 ((mkBuild inputW8).get (by decide))
    (Option.some_get (by decide)).symm).2.2.2.2.1

end TFT
